import Mathlib

/-!
# Hartree-Fock and MP2 energy evaluation (project1)

A shallow embedding of `compute_HF_energy` (`project1/HW1/src/hf_energy.c`) and
`compute_MP2_energy` (`project1/Hartree-fock Energy calculation/src/mp2_energy.c`).

Conventions of the embedding.

* `double` values are exact rationals.  A division by a zero denominator, whose
  result is a non-finite `double` (`Inf` or `NaN`), is the value `none`; a
  non-finite value stays non-finite under the `+=` of the accumulation loop.
* Arrays passed by pointer (`one_e_integrals`, `index`, `value`, `mo_energy`) are
  functions from the offset to the element.  `index` holds `int32_t` values, so
  its elements are integers.
* `calloc` succeeds (the branch `if (!mo_tei) exit(EXIT_FAILURE)` is not taken)
  and the buffer `mo_tei` is a zero-initialised store from the flat offset to the
  element.  The store is defined at every integer offset, the C buffer only at the
  offsets of `[0, mo_num^4)`: an access at another offset is undefined in C, and
  what the store gives there is not a statement about the program.  `InRange`,
  `InBuffer` and `WritesInBuffer` are the conditions under which every access
  is inside the buffer.
* Integer index arithmetic (`i * mo_num + i` in `int`, the `size_t` offset of the
  `MO_TEI` macro) is exact in the two energy functions: the results about them
  are about the values these expressions denote.  The evaluation of the offset and
  of the allocation size modulo `2^64` is `MO_TEI_index_size_t` and `total_size`,
  and it is compared with the exact values in the section on `size_t`.
* The standalone program of `project1/src/MP-2 Energy calculation/src/main.c`
  (`get_2e_integral` and the loops of its `main`), the three read paths of the
  two-electron integrals and the copy of `compute_HF_energy` in
  `project1/src/hf_energy.c` are embedded after the two energy functions;
  `compute_acc` of `project3/program.c` is in the namespace `Project3`.
* `mo_num` and `n_occ` are natural numbers in `compute_HF_energy` and
  `compute_MP2_energy`; `compute_HF_energy_int` and `compute_MP2_energy_int` are the
  same two functions with integer `mo_num` and `n_occ`, for the dimensions that
  are zero or negative, and agree with them on natural dimensions.
-/

namespace Project1

/-- Flat offset of the `MO_TEI(i,j,k,l, arr, mo_num)` macro,
`(((size_t)(i)*(mo_num) + (j))*(mo_num) + (k))*(mo_num) + (l)`, as an exact
integer. -/
def MO_TEI_index (i j k l : Int) (mo_num : Nat) : Int :=
  ((i * (mo_num : Int) + j) * (mo_num : Int) + k) * (mo_num : Int) + l

/-- The macro `MO_TEI(i,j,k,l, arr, mo_num)` used as a value: the element of `arr`
at the flat offset. -/
def MO_TEI (i j k l : Int) (arr : Int → ℚ) (mo_num : Nat) : ℚ :=
  arr (MO_TEI_index i j k l mo_num)

/-- The assignment `MO_TEI(i,j,k,l, arr, mo_num) = val`: the store after the
write.  It is the effect of the C assignment when the offset is inside the buffer;
outside the buffer the C assignment is undefined. -/
def MO_TEI_assign (i j k l : Int) (arr : Int → ℚ) (mo_num : Nat) (val : ℚ) : Int → ℚ :=
  fun a => if a = MO_TEI_index i j k l mo_num then val else arr a

/-- The buffer returned by `calloc(total_size, sizeof(double))`: every element is
zero.  The elements of the C buffer are those at the offsets below `total_size`;
the store extends them by zero to every integer offset. -/
def calloc_double : Int → ℚ :=
  fun _ => 0

/-- The tensor-population loop of `compute_HF_energy`
(`hf_energy.c`, lines 154-179): the buffer `mo_tei` after the loop over the
`n_integrals` sparse records. -/
def HF_mo_tei (n_integrals : Nat) (index : Nat → Int) (value : Nat → ℚ) (mo_num : Nat) :
    Int → ℚ :=
  (List.range n_integrals).foldl
    (fun mo_tei (n : Nat) =>
      let i := index (4 * n + 0)
      let j := index (4 * n + 1)
      let k := index (4 * n + 2)
      let l := index (4 * n + 3)
      let val := value n
      let mo_tei := MO_TEI_assign i j k l mo_tei mo_num val
      let mo_tei := MO_TEI_assign i l k j mo_tei mo_num val
      let mo_tei := MO_TEI_assign k l i j mo_tei mo_num val
      let mo_tei := MO_TEI_assign k j i l mo_tei mo_num val
      let mo_tei := MO_TEI_assign j i l k mo_tei mo_num val
      let mo_tei := MO_TEI_assign l i j k mo_tei mo_num val
      let mo_tei := MO_TEI_assign l k j i mo_tei mo_num val
      let mo_tei := MO_TEI_assign j k l i mo_tei mo_num val
      mo_tei)
    calloc_double

/-- The function `compute_HF_energy` of `hf_energy.c`. -/
def compute_HF_energy (E_NN : ℚ) (one_e_integrals : Nat → ℚ) (n_integrals : Nat)
    (index : Nat → Int) (value : Nat → ℚ) (mo_num n_occ : Nat) : ℚ :=
  let hf_energy := E_NN
  let sum_one_e := (List.range n_occ).foldl
    (fun sum_one_e (i : Nat) => sum_one_e + 2 * one_e_integrals (i * mo_num + i)) 0
  let hf_energy := hf_energy + sum_one_e
  let mo_tei := HF_mo_tei n_integrals index value mo_num
  let sum_two_e := (List.range n_occ).foldl
    (fun sum_two_e (i : Nat) =>
      (List.range n_occ).foldl
        (fun sum_two_e (j : Nat) =>
          let coulomb := MO_TEI i j i j mo_tei mo_num
          let exchange := MO_TEI i j j i mo_tei mo_num
          sum_two_e + (2 * coulomb - exchange))
        sum_two_e)
    0
  let hf_energy := hf_energy + sum_two_e
  hf_energy

/-- The tensor-population loop of `compute_MP2_energy`
(`mp2_energy.c`, lines 20-45). -/
def MP2_mo_tei (n_integrals : Nat) (index : Nat → Int) (value : Nat → ℚ) (mo_num : Nat) :
    Int → ℚ :=
  (List.range n_integrals).foldl
    (fun mo_tei (n : Nat) =>
      let i := index (4 * n + 0)
      let j := index (4 * n + 1)
      let k := index (4 * n + 2)
      let l := index (4 * n + 3)
      let val := value n
      let mo_tei := MO_TEI_assign i j k l mo_tei mo_num val
      let mo_tei := MO_TEI_assign i l k j mo_tei mo_num val
      let mo_tei := MO_TEI_assign k l i j mo_tei mo_num val
      let mo_tei := MO_TEI_assign k j i l mo_tei mo_num val
      let mo_tei := MO_TEI_assign j i l k mo_tei mo_num val
      let mo_tei := MO_TEI_assign l i j k mo_tei mo_num val
      let mo_tei := MO_TEI_assign l k j i mo_tei mo_num val
      let mo_tei := MO_TEI_assign j k l i mo_tei mo_num val
      mo_tei)
    calloc_double

/-- The division `numerator / denom` on `double`: a zero denominator gives a
non-finite value, written `none`. -/
def double_div (numerator denom : ℚ) : Option ℚ :=
  if denom = 0 then none else some (numerator / denom)

/-- The accumulation `emp2 += term`: the sum is finite only when both operands
are. -/
def double_add (emp2 term : Option ℚ) : Option ℚ :=
  match emp2, term with
  | some x, some y => some (x + y)
  | _, _ => none

/-- The function `compute_MP2_energy` of `mp2_energy.c`. -/
def compute_MP2_energy (mo_energy : Nat → ℚ) (mo_num n_occ n_integrals : Nat)
    (index : Nat → Int) (value : Nat → ℚ) : Option ℚ :=
  let mo_tei := MP2_mo_tei n_integrals index value mo_num
  (List.range n_occ).foldl
    (fun emp2 (i : Nat) =>
      (List.range n_occ).foldl
        (fun emp2 (j : Nat) =>
          (List.range' n_occ (mo_num - n_occ)).foldl
            (fun emp2 (a : Nat) =>
              (List.range' n_occ (mo_num - n_occ)).foldl
                (fun emp2 (b : Nat) =>
                  let denom := (mo_energy i + mo_energy j) - (mo_energy a + mo_energy b)
                  let ijab := MO_TEI i j a b mo_tei mo_num
                  let ijba := MO_TEI i j b a mo_tei mo_num
                  let numerator := ijab * (2 * ijab - ijba)
                  double_add emp2 (double_div numerator denom))
                emp2)
            emp2)
        emp2)
    (some 0)

/-! ## Vocabulary of the properties -/

/-- The sparse list is in range: each of the four indices of each of the
`n_integrals` records lies in `[0, mo_num)`. -/
def InRange (n_integrals : Nat) (index : Nat → Int) (mo_num : Nat) : Prop :=
  ∀ n, n < n_integrals → ∀ c, c < 4 → 0 ≤ index (4 * n + c) ∧ index (4 * n + c) < (mo_num : Int)

/-- The index tuple `(i,j,k,l)` lies in `[0, mo_num)^4`. -/
def InTensor (mo_num : Nat) (i j k l : Int) : Prop :=
  (0 ≤ i ∧ i < (mo_num : Int)) ∧ (0 ≤ j ∧ j < (mo_num : Int)) ∧
    (0 ≤ k ∧ k < (mo_num : Int)) ∧ (0 ≤ l ∧ l < (mo_num : Int))

/-- The eight index tuples assigned for a record `(i,j,k,l)`, in the order of the
eight assignments of the population loop. -/
def sym8 (i j k l : Int) : List (Int × Int × Int × Int) :=
  [(i, j, k, l), (i, l, k, j), (k, l, i, j), (k, j, i, l),
   (j, i, l, k), (l, i, j, k), (l, k, j, i), (j, k, l, i)]

/-- The eight index tuples assigned for record `n` of the sparse list. -/
def record_sym8 (index : Nat → Int) (n : Nat) : List (Int × Int × Int × Int) :=
  sym8 (index (4 * n + 0)) (index (4 * n + 1)) (index (4 * n + 2)) (index (4 * n + 3))

/-- The eight assignments of one iteration of the population loop, the last one
outermost. -/
def store8 (i j k l : Int) (mo_tei : Int → ℚ) (mo_num : Nat) (val : ℚ) : Int → ℚ :=
  MO_TEI_assign j k l i
    (MO_TEI_assign l k j i
      (MO_TEI_assign l i j k
        (MO_TEI_assign j i l k
          (MO_TEI_assign k j i l
            (MO_TEI_assign k l i j
              (MO_TEI_assign i l k j
                (MO_TEI_assign i j k l mo_tei mo_num val)
                mo_num val) mo_num val) mo_num val) mo_num val) mo_num val) mo_num val) mo_num val

/-- One term of the MP2 sum: `ijab * (2 ijab - ijba) / (e_i + e_j - e_a - e_b)`. -/
def MP2_term (mo_energy : Nat → ℚ) (mo_tei : Int → ℚ) (mo_num i j a b : Nat) : ℚ :=
  MO_TEI i j a b mo_tei mo_num * (2 * MO_TEI i j a b mo_tei mo_num - MO_TEI i j b a mo_tei mo_num)
    / (mo_energy i + mo_energy j - mo_energy a - mo_energy b)

/-- No denominator `e_i + e_j - e_a - e_b` of the MP2 sum vanishes, for `i, j`
occupied and `a, b` virtual. -/
def NonDegenerate (mo_energy : Nat → ℚ) (mo_num n_occ : Nat) : Prop :=
  ∀ i j a b, i < n_occ → j < n_occ → n_occ ≤ a → a < mo_num → n_occ ≤ b → b < mo_num →
    mo_energy i + mo_energy j - mo_energy a - mo_energy b ≠ 0

/-- Record `n` of the sparse list: its stored index tuple `(i,j,k,l)` and its
value. -/
def record (index : Nat → Int) (value : Nat → ℚ) (n : Nat) : (Int × Int × Int × Int) × ℚ :=
  ((index (4 * n + 0), index (4 * n + 1), index (4 * n + 2), index (4 * n + 3)), value n)

/-- The sparse list as the list of its `n_integrals` records, in order. -/
def records (n_integrals : Nat) (index : Nat → Int) (value : Nat → ℚ) :
    List ((Int × Int × Int × Int) × ℚ) :=
  (List.range n_integrals).map (record index value)

/-- The records of the sparse list whose four indices are all occupied orbitals
(below `n_occ`), in list order. -/
def occupied_records (n_integrals : Nat) (index : Nat → Int) (value : Nat → ℚ) (n_occ : Nat) :
    List ((Int × Int × Int × Int) × ℚ) :=
  (records n_integrals index value).filter
    (fun r => decide (r.1.1 < (n_occ : Int) ∧ r.1.2.1 < (n_occ : Int)
      ∧ r.1.2.2.1 < (n_occ : Int) ∧ r.1.2.2.2 < (n_occ : Int)))

/-- The value of the last record of a list whose eight tuples include `t`, and `0`
when there is none. -/
def last_value (L : List ((Int × Int × Int × Int) × ℚ)) (t : Int × Int × Int × Int) : ℚ :=
  L.foldl (fun acc r => if t ∈ sym8 r.1.1 r.1.2.1 r.1.2.2.1 r.1.2.2.2 then r.2 else acc) 0

/-- The eight rearrangements of the four index positions used by the population
loop, in the order of its assignments: entry `c` of a rearrangement is the
position of the record's tuple `(i,j,k,l)` that is passed as argument `c` of
`MO_TEI`. -/
def rearrangements : List (Fin 4 → Fin 4) :=
  [![0, 1, 2, 3], ![0, 3, 2, 1], ![2, 3, 0, 1], ![2, 1, 0, 3],
   ![1, 0, 3, 2], ![3, 0, 1, 2], ![3, 2, 1, 0], ![1, 2, 3, 0]]

/-- The tuple `(i,j,k,l)` rearranged by `σ`. -/
def rearrange (σ : Fin 4 → Fin 4) (i j k l : Int) : Int × Int × Int × Int :=
  (![i, j, k, l] (σ 0), ![i, j, k, l] (σ 1), ![i, j, k, l] (σ 2), ![i, j, k, l] (σ 3))

/-- The sparse list lists each symmetry-distinct integral once: the stored tuple
of a record is none of the eight tuples of another record. -/
def SymmetryDistinct (n_integrals : Nat) (index : Nat → Int) : Prop :=
  ∀ n n', n < n_integrals → n' < n_integrals → n ≠ n' →
    (index (4 * n + 0), index (4 * n + 1), index (4 * n + 2), index (4 * n + 3))
      ∉ record_sym8 index n'

/-! ## The energy loops on a given tensor -/

/-- The loops of `compute_HF_energy` that precede and follow the population loop
(`hf_energy.c`, lines 145-152 and 181-190), run on a given buffer `mo_tei`. -/
def HF_energy_of_tensor (E_NN : ℚ) (one_e_integrals : Nat → ℚ) (mo_tei : Int → ℚ)
    (mo_num n_occ : Nat) : ℚ :=
  let hf_energy := E_NN
  let sum_one_e := (List.range n_occ).foldl
    (fun sum_one_e (i : Nat) => sum_one_e + 2 * one_e_integrals (i * mo_num + i)) 0
  let hf_energy := hf_energy + sum_one_e
  let sum_two_e := (List.range n_occ).foldl
    (fun sum_two_e (i : Nat) =>
      (List.range n_occ).foldl
        (fun sum_two_e (j : Nat) =>
          let coulomb := MO_TEI i j i j mo_tei mo_num
          let exchange := MO_TEI i j j i mo_tei mo_num
          sum_two_e + (2 * coulomb - exchange))
        sum_two_e)
    0
  let hf_energy := hf_energy + sum_two_e
  hf_energy

/-- The loop of `compute_MP2_energy` that follows the population loop
(`mp2_energy.c`, lines 47-68), run on a given buffer `mo_tei`. -/
def MP2_energy_of_tensor (mo_energy : Nat → ℚ) (mo_num n_occ : Nat) (mo_tei : Int → ℚ) :
    Option ℚ :=
  (List.range n_occ).foldl
    (fun emp2 (i : Nat) =>
      (List.range n_occ).foldl
        (fun emp2 (j : Nat) =>
          (List.range' n_occ (mo_num - n_occ)).foldl
            (fun emp2 (a : Nat) =>
              (List.range' n_occ (mo_num - n_occ)).foldl
                (fun emp2 (b : Nat) =>
                  let denom := (mo_energy i + mo_energy j) - (mo_energy a + mo_energy b)
                  let ijab := MO_TEI i j a b mo_tei mo_num
                  let ijba := MO_TEI i j b a mo_tei mo_num
                  let numerator := ijab * (2 * ijab - ijba)
                  double_add emp2 (double_div numerator denom))
                emp2)
            emp2)
        emp2)
    (some 0)

/-! ## Index arithmetic in `size_t` -/

/-- The modulus of the unsigned 64-bit type `size_t`. -/
def SIZE_T_MOD : Nat :=
  2 ^ 64

/-- The conversion `(size_t)(x)` of a C `int`. -/
def size_t_of_int (x : Int) : Nat :=
  (x % (SIZE_T_MOD : Int)).toNat

/-- Multiplication of two `size_t` values. -/
def size_t_mul (a b : Nat) : Nat :=
  (a * b) % SIZE_T_MOD

/-- Addition of two `size_t` values. -/
def size_t_add (a b : Nat) : Nat :=
  (a + b) % SIZE_T_MOD

/-- The flat offset of the `MO_TEI` macro,
`(((size_t)(i)*(mo_num) + (j))*(mo_num) + (k))*(mo_num) + (l)`, evaluated in
`size_t` arithmetic: the `int` operands `mo_num`, `j`, `k`, `l` are converted to
`size_t` and every product and sum is taken modulo `2^64`. -/
def MO_TEI_index_size_t (i j k l : Int) (mo_num : Nat) : Nat :=
  size_t_add
    (size_t_mul
      (size_t_add
        (size_t_mul
          (size_t_add (size_t_mul (size_t_of_int i) (size_t_of_int mo_num)) (size_t_of_int j))
          (size_t_of_int mo_num))
        (size_t_of_int k))
      (size_t_of_int mo_num))
    (size_t_of_int l)

/-- The allocation size `size_t total_size = (size_t)mo_num * mo_num * mo_num * mo_num`,
evaluated in `size_t` arithmetic. -/
def total_size (mo_num : Nat) : Nat :=
  size_t_mul
    (size_t_mul (size_t_mul (size_t_of_int mo_num) (size_t_of_int mo_num))
      (size_t_of_int mo_num))
    (size_t_of_int mo_num)

/-! ## Reading the two-electron integrals

The three read paths call the TREXIO library and `malloc`; their results are the
parameters: whether `trexio_read_mo_2e_int_eri_size` returned `TREXIO_SUCCESS`, the
declared count `n_integrals`, whether the two `malloc` calls returned a non-null
pointer, whether `trexio_read_mo_2e_int_eri` returned `TREXIO_SUCCESS`, and the
value of `buffer_size` after that call.  The result `none` is the failure exit
(`exit(EXIT_FAILURE)`, `exit(1)`, or `return 1` from `main`); `some n` is the
normal continuation with `n` integrals taken as read. -/

/-- The function `read_two_electron_integrals` of `project1/HW1/src/hf_energy.c`. -/
def read_two_electron_integrals (rc_size_success : Bool) (n_integrals : Int)
    (index_allocated value_allocated rc_read_success : Bool) (buffer_size : Int) :
    Option Int :=
  if rc_size_success = false then none
  else if index_allocated = false then none
  else if value_allocated = false then none
  else if rc_read_success = false then none
  else if buffer_size ≠ n_integrals then none
  else some n_integrals

/-- The function `read_two_electron_integrals` of `project1/src/hf_energy.c`. -/
def read_two_electron_integrals_src (rc_size_success : Bool) (n_integrals : Int)
    (index_allocated value_allocated rc_read_success : Bool) (_buffer_size : Int) :
    Option Int :=
  if rc_size_success = false then none
  else if index_allocated = false ∨ value_allocated = false then none
  else if rc_read_success = false then none
  else some n_integrals

/-- The inline read of the two-electron integrals in `main` of
`project1/src/MP-2 Energy calculation/src/main.c` (lines 83-102). -/
def main_read_two_electron_integrals (rc_size_success : Bool) (n_integrals : Int)
    (idx_allocated val_allocated rc_read_success : Bool) (_buffer_size : Int) :
    Option Int :=
  if rc_size_success = false then none
  else if idx_allocated = false ∨ val_allocated = false then none
  else if rc_read_success = false then none
  else some n_integrals

/-! ## The standalone program (`MP-2 Energy calculation/src/main.c`) -/

/-- The loop of `get_2e_integral` over the record numbers still to be visited:
the value of the first record whose stored tuple is `(p,q,r,s)`, and `0.0` when
the loop ends without a match. -/
def get_2e_integral_loop (p q r s : Int) (idx : Nat → Int) (val : Nat → ℚ) : List Nat → ℚ
  | [] => 0
  | n :: rest =>
    let i := idx (4 * n + 0)
    let j := idx (4 * n + 1)
    let k := idx (4 * n + 2)
    let l := idx (4 * n + 3)
    if i = p ∧ j = q ∧ k = r ∧ l = s then val n
    else get_2e_integral_loop p q r s idx val rest

/-- The function `get_2e_integral` of the standalone program. -/
def get_2e_integral (p q r s : Int) (idx : Nat → Int) (val : Nat → ℚ) (n_int : Nat) : ℚ :=
  get_2e_integral_loop p q r s idx val (List.range n_int)

/-- The MP2 loop of `main` in the standalone program (lines 148-166): the final
value of `E_MP2`. -/
def main_E_MP2 (mo_energy : Nat → ℚ) (mo_num n_occ : Nat) (idx : Nat → Int) (val : Nat → ℚ)
    (n_integrals : Nat) : Option ℚ :=
  (List.range n_occ).foldl
    (fun E_MP2 (i : Nat) =>
      (List.range n_occ).foldl
        (fun E_MP2 (j : Nat) =>
          (List.range' n_occ (mo_num - n_occ)).foldl
            (fun E_MP2 (a : Nat) =>
              (List.range' n_occ (mo_num - n_occ)).foldl
                (fun E_MP2 (b : Nat) =>
                  let ijab := get_2e_integral i j a b idx val n_integrals
                  let ijba := get_2e_integral i j b a idx val n_integrals
                  let numerator := ijab * (ijab - ijba)
                  let denominator := mo_energy i + mo_energy j - mo_energy a - mo_energy b
                  double_add E_MP2 (double_div numerator denominator))
                E_MP2)
            E_MP2)
        E_MP2)
    (some 0)

/-! ## Accesses inside the buffer -/

/-- The flat offset lies inside the buffer `mo_tei` of `mo_num^4` elements. -/
def InBuffer (mo_num : Nat) (offset : Int) : Prop :=
  0 ≤ offset ∧ offset < (mo_num : Int) ^ 4

/-- Every assignment of the population loop, for each of the eight tuples of each
of the `n_integrals` records, goes to an element inside the buffer. -/
def WritesInBuffer (n_integrals : Nat) (index : Nat → Int) (mo_num : Nat) : Prop :=
  ∀ n, n < n_integrals → ∀ p q r s : Int, (p, q, r, s) ∈ record_sym8 index n →
    InBuffer mo_num (MO_TEI_index p q r s mo_num)

/-! ## The two energy functions with `int` dimensions of either sign

`mo_num` and `n_occ` are C `int`s.  The embeddings above take them as natural
numbers; the ones below take them as integers, so that `mo_num ≤ 0` and
`n_occ < 0` are inputs too.  The arrays `one_e_integrals` and `mo_energy` are
then functions of an integer offset. -/

/-- The successive values of the loop variable of
`for (int a = lo; a < hi; a++)`. -/
def int_loop (lo hi : Int) : List Int :=
  (List.range (hi - lo).toNat).map (fun (t : Nat) => lo + (t : Int))

/-- The flat offset of the `MO_TEI` macro for an `int mo_num` of either sign, as an
exact integer. -/
def MO_TEI_index_int (i j k l mo_num : Int) : Int :=
  ((i * mo_num + j) * mo_num + k) * mo_num + l

/-- The macro `MO_TEI(i,j,k,l, arr, mo_num)` used as a value. -/
def MO_TEI_int (i j k l : Int) (arr : Int → ℚ) (mo_num : Int) : ℚ :=
  arr (MO_TEI_index_int i j k l mo_num)

/-- The assignment `MO_TEI(i,j,k,l, arr, mo_num) = val`. -/
def MO_TEI_assign_int (i j k l : Int) (arr : Int → ℚ) (mo_num : Int) (val : ℚ) : Int → ℚ :=
  fun a => if a = MO_TEI_index_int i j k l mo_num then val else arr a

/-- The population loop of both functions (`hf_energy.c`, lines 154-179, and
`mp2_energy.c`, lines 20-45) for an `int mo_num`. -/
def mo_tei_int (n_integrals : Nat) (index : Nat → Int) (value : Nat → ℚ) (mo_num : Int) :
    Int → ℚ :=
  (List.range n_integrals).foldl
    (fun mo_tei (n : Nat) =>
      let i := index (4 * n + 0)
      let j := index (4 * n + 1)
      let k := index (4 * n + 2)
      let l := index (4 * n + 3)
      let val := value n
      let mo_tei := MO_TEI_assign_int i j k l mo_tei mo_num val
      let mo_tei := MO_TEI_assign_int i l k j mo_tei mo_num val
      let mo_tei := MO_TEI_assign_int k l i j mo_tei mo_num val
      let mo_tei := MO_TEI_assign_int k j i l mo_tei mo_num val
      let mo_tei := MO_TEI_assign_int j i l k mo_tei mo_num val
      let mo_tei := MO_TEI_assign_int l i j k mo_tei mo_num val
      let mo_tei := MO_TEI_assign_int l k j i mo_tei mo_num val
      let mo_tei := MO_TEI_assign_int j k l i mo_tei mo_num val
      mo_tei)
    calloc_double

/-- The function `compute_HF_energy` of `hf_energy.c` for `int mo_num` and
`int n_occ` of either sign. -/
def compute_HF_energy_int (E_NN : ℚ) (one_e_integrals : Int → ℚ) (n_integrals : Nat)
    (index : Nat → Int) (value : Nat → ℚ) (mo_num n_occ : Int) : ℚ :=
  let hf_energy := E_NN
  let sum_one_e := (int_loop 0 n_occ).foldl
    (fun sum_one_e (i : Int) => sum_one_e + 2 * one_e_integrals (i * mo_num + i)) 0
  let hf_energy := hf_energy + sum_one_e
  let mo_tei := mo_tei_int n_integrals index value mo_num
  let sum_two_e := (int_loop 0 n_occ).foldl
    (fun sum_two_e (i : Int) =>
      (int_loop 0 n_occ).foldl
        (fun sum_two_e (j : Int) =>
          let coulomb := MO_TEI_int i j i j mo_tei mo_num
          let exchange := MO_TEI_int i j j i mo_tei mo_num
          sum_two_e + (2 * coulomb - exchange))
        sum_two_e)
    0
  let hf_energy := hf_energy + sum_two_e
  hf_energy

/-- The function `compute_MP2_energy` of `mp2_energy.c` for `int mo_num` and
`int n_occ` of either sign. -/
def compute_MP2_energy_int (mo_energy : Int → ℚ) (mo_num n_occ : Int) (n_integrals : Nat)
    (index : Nat → Int) (value : Nat → ℚ) : Option ℚ :=
  let mo_tei := mo_tei_int n_integrals index value mo_num
  (int_loop 0 n_occ).foldl
    (fun emp2 (i : Int) =>
      (int_loop 0 n_occ).foldl
        (fun emp2 (j : Int) =>
          (int_loop n_occ mo_num).foldl
            (fun emp2 (a : Int) =>
              (int_loop n_occ mo_num).foldl
                (fun emp2 (b : Int) =>
                  let denom := (mo_energy i + mo_energy j) - (mo_energy a + mo_energy b)
                  let ijab := MO_TEI_int i j a b mo_tei mo_num
                  let ijba := MO_TEI_int i j b a mo_tei mo_num
                  let numerator := ijab * (2 * ijab - ijba)
                  double_add emp2 (double_div numerator denom))
                emp2)
            emp2)
        emp2)
    (some 0)

/-! ## The second copy of `compute_HF_energy` (`project1/src/hf_energy.c`) -/

/-- The function `compute_HF_energy` of `project1/src/hf_energy.c` (lines 122-203).
Its `MO_TEI` macro (lines 119-120) is the expression of the macro of the first
copy. -/
def compute_HF_energy_src (E_NN : ℚ) (one_e_integrals : Nat → ℚ) (n_integrals : Nat)
    (index : Nat → Int) (value : Nat → ℚ) (mo_num n_occ : Nat) : ℚ :=
  let hf_energy := E_NN
  let sum_one_e := (List.range n_occ).foldl
    (fun sum_one_e (i : Nat) => sum_one_e + 2 * one_e_integrals (i * mo_num + i)) 0
  let hf_energy := hf_energy + sum_one_e
  let mo_tei := calloc_double
  let mo_tei := (List.range n_integrals).foldl
    (fun mo_tei (n : Nat) =>
      let i := index (4 * n + 0)
      let j := index (4 * n + 1)
      let k := index (4 * n + 2)
      let l := index (4 * n + 3)
      let integral := value n
      let mo_tei := MO_TEI_assign i j k l mo_tei mo_num integral
      let mo_tei := MO_TEI_assign i l k j mo_tei mo_num integral
      let mo_tei := MO_TEI_assign k l i j mo_tei mo_num integral
      let mo_tei := MO_TEI_assign k j i l mo_tei mo_num integral
      let mo_tei := MO_TEI_assign j i l k mo_tei mo_num integral
      let mo_tei := MO_TEI_assign l i j k mo_tei mo_num integral
      let mo_tei := MO_TEI_assign l k j i mo_tei mo_num integral
      let mo_tei := MO_TEI_assign j k l i mo_tei mo_num integral
      mo_tei)
    mo_tei
  let two_e_sum := (List.range n_occ).foldl
    (fun two_e_sum (i : Nat) =>
      (List.range n_occ).foldl
        (fun two_e_sum (j : Nat) =>
          let coulomb := MO_TEI i j i j mo_tei mo_num
          let exchange := MO_TEI i j j i mo_tei mo_num
          two_e_sum + (2 * coulomb - exchange))
        two_e_sum)
    0
  let hf_energy := hf_energy + two_e_sum
  hf_energy

/-- Every occupied orbital energy is strictly below every virtual orbital
energy. -/
def OccupiedBelowVirtual (mo_energy : Nat → ℚ) (mo_num n_occ : Nat) : Prop :=
  ∀ i a, i < n_occ → n_occ ≤ a → a < mo_num → mo_energy i < mo_energy a

end Project1

/-! # Accelerations of the molecular-dynamics program (project3)

A shallow embedding of `compute_acc` (`project3/program.c`).  The arrays
`coord`, `distance` and `acceleration` (`double**`) are functions of the two
offsets and `mass` (`double*`) of one; `compute_acc` returns the array
`acceleration` after its loops.  An element of `acceleration` is `none` when it
is a non-finite `double`, as the result of the unguarded division by `mass[i]`
is for a zero mass. -/

namespace Project3

/-- The array `a` after the assignment `a[i][d] = v`. -/
def assign2 (a : Nat → Nat → Option ℚ) (i d : Nat) (v : Option ℚ) : Nat → Nat → Option ℚ :=
  fun i' d' => if i' = i ∧ d' = d then v else a i' d'

/-- The body of the first loop of `compute_acc` (lines 100-104): the three
components of atom `i` are set to `0.0`. -/
def acc_init (acceleration : Nat → Nat → Option ℚ) (i : Nat) : Nat → Nat → Option ℚ :=
  let acceleration := assign2 acceleration i 0 (some 0)
  let acceleration := assign2 acceleration i 1 (some 0)
  let acceleration := assign2 acceleration i 2 (some 0)
  acceleration

/-- The body of the double loop of `compute_acc` (lines 109-126) for the pair
`(i, j)`. -/
def acc_pair (coord : Nat → Nat → ℚ) (mass : Nat → ℚ) (distance : Nat → Nat → ℚ)
    (acceleration : Nat → Nat → Option ℚ) (i j : Nat) : Nat → Nat → Option ℚ :=
  let epsilon : ℚ := 0.0661
  let sigma : ℚ := 0.3345
  if i ≠ j then
    let dx := coord i 0 - coord j 0
    let dy := coord i 1 - coord j 1
    let dz := coord i 2 - coord j 2
    let r := distance i j
    if r > 0 then
      let r_inv := sigma / r
      let r_inv6 := r_inv ^ 6
      let r_inv12 := r_inv6 * r_inv6
      let force_mag := 24 * epsilon * (2 * r_inv12 - r_inv6) / (r * r)
      let acceleration := assign2 acceleration i 0
        (Project1.double_add (acceleration i 0) (Project1.double_div (force_mag * dx) (mass i)))
      let acceleration := assign2 acceleration i 1
        (Project1.double_add (acceleration i 1) (Project1.double_div (force_mag * dy) (mass i)))
      let acceleration := assign2 acceleration i 2
        (Project1.double_add (acceleration i 2) (Project1.double_div (force_mag * dz) (mass i)))
      acceleration
    else acceleration
  else acceleration

/-- The function `compute_acc` of `program.c`: the array `acceleration` after the
initialisation loop and the double loop over the pairs. -/
def compute_acc (Natoms : Nat) (coord : Nat → Nat → ℚ) (mass : Nat → ℚ)
    (distance : Nat → Nat → ℚ) (acceleration : Nat → Nat → Option ℚ) :
    Nat → Nat → Option ℚ :=
  let acceleration := (List.range Natoms).foldl
    (fun acceleration (i : Nat) => acc_init acceleration i) acceleration
  (List.range Natoms).foldl
    (fun acceleration (i : Nat) =>
      (List.range Natoms).foldl
        (fun acceleration (j : Nat) => acc_pair coord mass distance acceleration i j)
        acceleration)
    acceleration

/-- The value `force_mag` of `compute_acc` for a distance `r`:
`24 * epsilon * (2 * (sigma/r)^12 - (sigma/r)^6) / (r * r)`. -/
def force_mag (r : ℚ) : ℚ :=
  24 * 0.0661 * (2 * ((0.3345 / r) ^ 6 * (0.3345 / r) ^ 6) - (0.3345 / r) ^ 6) / (r * r)

/-- The force component `d` that the pair `(i, j)` contributes to atom `i`:
nothing for `i = j` and for a distance `≤ 0`. -/
def pair_force (coord : Nat → Nat → ℚ) (distance : Nat → Nat → ℚ) (i j d : Nat) : ℚ :=
  if i ≠ j ∧ 0 < distance i j then force_mag (distance i j) * (coord i d - coord j d) else 0

end Project3

namespace Project1

/-! ## Accumulation loops as sums -/

theorem foldl_add_eq_sum {α : Type} (L : List α) (g : α → ℚ) (s : ℚ) :
    L.foldl (fun acc x => acc + g x) s = s + (L.map g).sum := by
  induction L generalizing s with
  | nil => simp
  | cons x xs ih => simp [ih, add_assoc]

theorem sum_map_range (g : Nat → ℚ) (n : Nat) :
    ((List.range n).map g).sum = ∑ i in Finset.range n, g i := by
  induction n with
  | zero => simp
  | succ n ih => simp [List.range_succ, Finset.sum_range_succ, ih]

theorem sum_map_range' (g : Nat → ℚ) (s len : Nat) :
    ((List.range' s len).map g).sum = ∑ a in Finset.Ico s (s + len), g a := by
  induction len with
  | zero => simp
  | succ len ih =>
    rw [List.range'_concat, List.map_append, List.sum_append, ih, ← Nat.add_assoc,
      Finset.sum_Ico_succ_top (Nat.le_add_right s len)]
    simp

theorem sum_map_range'_sub (g : Nat → ℚ) (n m : Nat) :
    ((List.range' n (m - n)).map g).sum = ∑ a in Finset.Ico n m, g a := by
  rw [sum_map_range']
  rcases Nat.lt_or_ge m n with h | h
  · rw [Nat.sub_eq_zero_of_le (Nat.le_of_lt h), Nat.add_zero, Finset.Ico_self,
      Finset.Ico_eq_empty (by omega)]
  · rw [Nat.add_sub_cancel' h]

theorem foldl_double_add_eq_sum {α : Type} (L : List α) (F : Option ℚ → α → Option ℚ)
    (g : α → ℚ) (hF : ∀ x, x ∈ L → ∀ s, F (some s) x = some (s + g x)) (s : ℚ) :
    L.foldl F (some s) = some (s + (L.map g).sum) := by
  induction L generalizing s with
  | nil => simp
  | cons x xs ih =>
    rw [List.foldl_cons, hF x (List.mem_cons_self x xs) s,
      ih (fun y hy => hF y (List.mem_cons_of_mem x hy))]
    simp [add_assoc]

/-- The value returned by `compute_HF_energy`, with the three accumulation loops
written as sums. -/
theorem compute_HF_energy_eq (E_NN : ℚ) (one_e_integrals : Nat → ℚ) (n_integrals : Nat)
    (index : Nat → Int) (value : Nat → ℚ) (mo_num n_occ : Nat) :
    compute_HF_energy E_NN one_e_integrals n_integrals index value mo_num n_occ
      = E_NN + 2 * (∑ i in Finset.range n_occ, one_e_integrals (i * mo_num + i))
        + ∑ i in Finset.range n_occ, ∑ j in Finset.range n_occ,
            (2 * MO_TEI i j i j (HF_mo_tei n_integrals index value mo_num) mo_num
              - MO_TEI i j j i (HF_mo_tei n_integrals index value mo_num) mo_num) := by
  unfold compute_HF_energy
  simp only [foldl_add_eq_sum, sum_map_range, zero_add, Finset.mul_sum]

theorem double_add_double_div (s numerator denom : ℚ) (h : denom ≠ 0) :
    double_add (some s) (double_div numerator denom) = some (s + numerator / denom) := by
  simp [double_add, double_div, h]

/-- The value returned by `compute_MP2_energy` when no denominator vanishes, with
the four accumulation loops written as sums. -/
theorem compute_MP2_energy_eq (mo_energy : Nat → ℚ) (mo_num n_occ n_integrals : Nat)
    (index : Nat → Int) (value : Nat → ℚ) (hden : NonDegenerate mo_energy mo_num n_occ) :
    compute_MP2_energy mo_energy mo_num n_occ n_integrals index value
      = some (∑ i in Finset.range n_occ, ∑ j in Finset.range n_occ,
          ∑ a in Finset.Ico n_occ mo_num, ∑ b in Finset.Ico n_occ mo_num,
            MP2_term mo_energy (MP2_mo_tei n_integrals index value mo_num) mo_num i j a b) := by
  unfold compute_MP2_energy
  have hmem : ∀ a, a ∈ List.range' n_occ (mo_num - n_occ) → n_occ ≤ a ∧ a < mo_num := by
    intro a ha
    rw [List.mem_range'_1] at ha
    omega
  rw [foldl_double_add_eq_sum _ _ (fun i => ∑ j in Finset.range n_occ,
          ∑ a in Finset.Ico n_occ mo_num, ∑ b in Finset.Ico n_occ mo_num,
            MP2_term mo_energy (MP2_mo_tei n_integrals index value mo_num) mo_num i j a b),
    sum_map_range, zero_add]
  intro i hi s
  rw [foldl_double_add_eq_sum _ _ (fun j =>
          ∑ a in Finset.Ico n_occ mo_num, ∑ b in Finset.Ico n_occ mo_num,
            MP2_term mo_energy (MP2_mo_tei n_integrals index value mo_num) mo_num i j a b),
    sum_map_range]
  intro j hj s
  rw [foldl_double_add_eq_sum _ _ (fun a => ∑ b in Finset.Ico n_occ mo_num,
            MP2_term mo_energy (MP2_mo_tei n_integrals index value mo_num) mo_num i j a b),
    sum_map_range'_sub]
  intro a ha s
  rw [foldl_double_add_eq_sum _ _ (fun b =>
            MP2_term mo_energy (MP2_mo_tei n_integrals index value mo_num) mo_num i j a b),
    sum_map_range'_sub]
  intro b hb s
  have hd := hden i j a b (List.mem_range.mp hi) (List.mem_range.mp hj)
    (hmem a ha).1 (hmem a ha).2 (hmem b hb).1 (hmem b hb).2
  have hd' : mo_energy i + mo_energy j - (mo_energy a + mo_energy b) ≠ 0 := by
    intro h
    apply hd
    rw [← h]
    ring
  simp only []
  rw [double_add_double_div _ _ _ hd']
  unfold MP2_term
  rw [sub_sub]

/-! ## The population loop -/

theorem digit_unique (M a a' l l' : Int) (hl : 0 ≤ l) (hlM : l < M) (hl' : 0 ≤ l')
    (hl'M : l' < M) (h : a * M + l = a' * M + l') : a = a' ∧ l = l' := by
  have h1 : (a * M + l) % M = l := by
    rw [Int.add_comm, Int.add_mul_emod_self, Int.emod_eq_of_lt hl hlM]
  have h2 : (a' * M + l') % M = l' := by
    rw [Int.add_comm, Int.add_mul_emod_self, Int.emod_eq_of_lt hl' hl'M]
  have hll : l = l' := by rw [← h1, ← h2, h]
  have hM : M ≠ 0 := by omega
  refine ⟨?_, hll⟩
  rw [hll] at h
  exact mul_right_cancel₀ hM (add_right_cancel h)

theorem MO_TEI_index_inj (mo_num : Nat) (p q r s i j k l : Int)
    (hq0 : 0 ≤ q) (hq : q < mo_num) (hr0 : 0 ≤ r) (hr : r < mo_num)
    (hs0 : 0 ≤ s) (hs : s < mo_num) (hj0 : 0 ≤ j) (hj : j < mo_num)
    (hk0 : 0 ≤ k) (hk : k < mo_num) (hl0 : 0 ≤ l) (hl : l < mo_num) :
    MO_TEI_index p q r s mo_num = MO_TEI_index i j k l mo_num
      ↔ (p = i ∧ q = j ∧ r = k ∧ s = l) := by
  constructor
  · intro h
    unfold MO_TEI_index at h
    obtain ⟨h3, e4⟩ := digit_unique _ _ _ _ _ hs0 hs hl0 hl h
    obtain ⟨h2, e3⟩ := digit_unique _ _ _ _ _ hr0 hr hk0 hk h3
    obtain ⟨e1, e2⟩ := digit_unique _ _ _ _ _ hq0 hq hj0 hj h2
    exact ⟨e1, e2, e3, e4⟩
  · rintro ⟨rfl, rfl, rfl, rfl⟩
    rfl

theorem MO_TEI_assign_apply (mo_num : Nat) (arr : Int → ℚ) (val : ℚ) (i j k l p q r s : Int)
    (hq0 : 0 ≤ q) (hq : q < mo_num) (hr0 : 0 ≤ r) (hr : r < mo_num)
    (hs0 : 0 ≤ s) (hs : s < mo_num) (hj0 : 0 ≤ j) (hj : j < mo_num)
    (hk0 : 0 ≤ k) (hk : k < mo_num) (hl0 : 0 ≤ l) (hl : l < mo_num) :
    MO_TEI_assign i j k l arr mo_num val (MO_TEI_index p q r s mo_num)
      = if (p, q, r, s) = (i, j, k, l) then val else arr (MO_TEI_index p q r s mo_num) := by
  unfold MO_TEI_assign
  simp only [MO_TEI_index_inj mo_num p q r s i j k l hq0 hq hr0 hr hs0 hs hj0 hj hk0 hk hl0 hl,
    Prod.mk.injEq]

theorem ite_ite_same {α : Type} (a b : Prop) [Decidable a] [Decidable b] (v w : α) :
    (if a then v else if b then v else w) = if a ∨ b then v else w := by
  by_cases ha : a <;> by_cases hb : b <;> simp [ha, hb]

theorem store8_apply (mo_num : Nat) (mo_tei : Int → ℚ) (val : ℚ) (i j k l p q r s : Int)
    (hi0 : 0 ≤ i) (hi : i < mo_num) (hj0 : 0 ≤ j) (hj : j < mo_num)
    (hk0 : 0 ≤ k) (hk : k < mo_num) (hl0 : 0 ≤ l) (hl : l < mo_num)
    (hq0 : 0 ≤ q) (hq : q < mo_num) (hr0 : 0 ≤ r) (hr : r < mo_num)
    (hs0 : 0 ≤ s) (hs : s < mo_num) :
    store8 i j k l mo_tei mo_num val (MO_TEI_index p q r s mo_num)
      = if (p, q, r, s) ∈ sym8 i j k l then val else mo_tei (MO_TEI_index p q r s mo_num) := by
  unfold store8
  rw [MO_TEI_assign_apply mo_num _ val j k l i p q r s hq0 hq hr0 hr hs0 hs hk0 hk hl0 hl hi0 hi,
    MO_TEI_assign_apply mo_num _ val l k j i p q r s hq0 hq hr0 hr hs0 hs hk0 hk hj0 hj hi0 hi,
    MO_TEI_assign_apply mo_num _ val l i j k p q r s hq0 hq hr0 hr hs0 hs hi0 hi hj0 hj hk0 hk,
    MO_TEI_assign_apply mo_num _ val j i l k p q r s hq0 hq hr0 hr hs0 hs hi0 hi hl0 hl hk0 hk,
    MO_TEI_assign_apply mo_num _ val k j i l p q r s hq0 hq hr0 hr hs0 hs hj0 hj hi0 hi hl0 hl,
    MO_TEI_assign_apply mo_num _ val k l i j p q r s hq0 hq hr0 hr hs0 hs hl0 hl hi0 hi hj0 hj,
    MO_TEI_assign_apply mo_num _ val i l k j p q r s hq0 hq hr0 hr hs0 hs hl0 hl hk0 hk hj0 hj,
    MO_TEI_assign_apply mo_num _ val i j k l p q r s hq0 hq hr0 hr hs0 hs hj0 hj hk0 hk hl0 hl]
  simp only [ite_ite_same]
  apply if_congr _ rfl rfl
  simp only [sym8, List.mem_cons, List.mem_singleton, List.mem_nil_iff, or_false]
  tauto

theorem sym8_mem_congr (i j k l p q r s : Int) (t : Int × Int × Int × Int)
    (ht : t ∈ sym8 p q r s) :
    t ∈ sym8 i j k l ↔ (p, q, r, s) ∈ sym8 i j k l := by
  simp only [sym8, List.mem_cons, List.mem_singleton, List.mem_nil_iff, or_false] at ht ⊢
  rcases ht with rfl | rfl | rfl | rfl | rfl | rfl | rfl | rfl <;>
    simp only [Prod.mk.injEq] <;> constructor <;>
    rintro (⟨rfl, rfl, rfl, rfl⟩ | ⟨rfl, rfl, rfl, rfl⟩ | ⟨rfl, rfl, rfl, rfl⟩ |
      ⟨rfl, rfl, rfl, rfl⟩ | ⟨rfl, rfl, rfl, rfl⟩ | ⟨rfl, rfl, rfl, rfl⟩ |
      ⟨rfl, rfl, rfl, rfl⟩ | ⟨rfl, rfl, rfl, rfl⟩) <;>
    simp

theorem InTensor_of_mem_sym8 (mo_num : Nat) (i j k l p q r s : Int)
    (ht : InTensor mo_num i j k l) (hp : (p, q, r, s) ∈ sym8 i j k l) :
    InTensor mo_num p q r s := by
  simp only [sym8, List.mem_cons, List.mem_singleton, List.mem_nil_iff, or_false,
    Prod.mk.injEq] at hp
  unfold InTensor at ht ⊢
  obtain ⟨hi, hj, hk, hl⟩ := ht
  rcases hp with ⟨rfl, rfl, rfl, rfl⟩ | ⟨rfl, rfl, rfl, rfl⟩ | ⟨rfl, rfl, rfl, rfl⟩ |
      ⟨rfl, rfl, rfl, rfl⟩ | ⟨rfl, rfl, rfl, rfl⟩ | ⟨rfl, rfl, rfl, rfl⟩ |
      ⟨rfl, rfl, rfl, rfl⟩ | ⟨rfl, rfl, rfl, rfl⟩ <;>
    exact ⟨by assumption, by assumption, by assumption, by assumption⟩

theorem MP2_mo_tei_eq (n_integrals : Nat) (index : Nat → Int) (value : Nat → ℚ) (mo_num : Nat) :
    MP2_mo_tei n_integrals index value mo_num = HF_mo_tei n_integrals index value mo_num :=
  rfl

theorem HF_mo_tei_succ (N : Nat) (index : Nat → Int) (value : Nat → ℚ) (mo_num : Nat) :
    HF_mo_tei (N + 1) index value mo_num
      = store8 (index (4 * N + 0)) (index (4 * N + 1)) (index (4 * N + 2)) (index (4 * N + 3))
          (HF_mo_tei N index value mo_num) mo_num (value N) := by
  unfold HF_mo_tei
  rw [List.range_succ, List.foldl_append]
  rfl

theorem InRange_record (N : Nat) (index : Nat → Int) (mo_num : Nat)
    (hin : InRange N index mo_num) (n : Nat) (hn : n < N) :
    InTensor mo_num (index (4 * n + 0)) (index (4 * n + 1)) (index (4 * n + 2))
      (index (4 * n + 3)) :=
  ⟨hin n hn 0 (by decide), hin n hn 1 (by decide), hin n hn 2 (by decide),
    hin n hn 3 (by decide)⟩

theorem InRange_of_succ (N : Nat) (index : Nat → Int) (mo_num : Nat)
    (hin : InRange (N + 1) index mo_num) : InRange N index mo_num :=
  fun n hn => hin n (Nat.lt_succ_of_lt hn)

/-- Effect of one iteration of the population loop on an in-range entry: it holds
the record's value when the entry is one of the record's eight tuples, and is
unchanged otherwise. -/
theorem tensor_succ (N : Nat) (index : Nat → Int) (value : Nat → ℚ) (mo_num : Nat)
    (hrec : InTensor mo_num (index (4 * N + 0)) (index (4 * N + 1)) (index (4 * N + 2))
      (index (4 * N + 3)))
    (p q r s : Int) (ht : InTensor mo_num p q r s) :
    MO_TEI p q r s (HF_mo_tei (N + 1) index value mo_num) mo_num
      = if (p, q, r, s) ∈ record_sym8 index N then value N
        else MO_TEI p q r s (HF_mo_tei N index value mo_num) mo_num := by
  unfold MO_TEI record_sym8
  rw [HF_mo_tei_succ]
  obtain ⟨⟨hi0, hi⟩, ⟨hj0, hj⟩, ⟨hk0, hk⟩, ⟨hl0, hl⟩⟩ := hrec
  obtain ⟨_, ⟨hq0, hq⟩, ⟨hr0, hr⟩, ⟨hs0, hs⟩⟩ := ht
  exact store8_apply mo_num _ _ _ _ _ _ p q r s hi0 hi hj0 hj hk0 hk hl0 hl hq0 hq hr0 hr hs0 hs

/-- Entries at symmetry-equivalent tuples are equal after any number of
iterations. -/
theorem tensor_sym (N : Nat) (index : Nat → Int) (value : Nat → ℚ) (mo_num : Nat)
    (hin : InRange N index mo_num) (i j k l p q r s : Int) (ht : InTensor mo_num i j k l)
    (hp : (p, q, r, s) ∈ sym8 i j k l) :
    MO_TEI p q r s (HF_mo_tei N index value mo_num) mo_num
      = MO_TEI i j k l (HF_mo_tei N index value mo_num) mo_num := by
  induction N with
  | zero => rfl
  | succ N ih =>
    have hrec := InRange_record (N + 1) index mo_num hin N (Nat.lt_succ_self N)
    rw [tensor_succ N index value mo_num hrec p q r s
        (InTensor_of_mem_sym8 mo_num i j k l p q r s ht hp),
      tensor_succ N index value mo_num hrec i j k l ht,
      ih (InRange_of_succ N index mo_num hin)]
    exact if_congr (sym8_mem_congr _ _ _ _ i j k l (p, q, r, s) hp) rfl rfl

/-- An in-range entry holds the value of the last record that assigns it. -/
theorem tensor_last_write (N : Nat) (index : Nat → Int) (value : Nat → ℚ) (mo_num : Nat)
    (hin : InRange N index mo_num) (p q r s : Int) (ht : InTensor mo_num p q r s)
    (n : Nat) (hn : n < N) (hmem : (p, q, r, s) ∈ record_sym8 index n)
    (hlast : ∀ n', n < n' → n' < N → (p, q, r, s) ∉ record_sym8 index n') :
    MO_TEI p q r s (HF_mo_tei N index value mo_num) mo_num = value n := by
  induction N with
  | zero => exact absurd hn (Nat.not_lt_zero n)
  | succ N ih =>
    have hrec := InRange_record (N + 1) index mo_num hin N (Nat.lt_succ_self N)
    rw [tensor_succ N index value mo_num hrec p q r s ht]
    by_cases hnN : n = N
    · subst hnN
      rw [if_pos hmem]
    · have hlt : n < N := by omega
      rw [if_neg (hlast N hlt (Nat.lt_succ_self N))]
      exact ih (InRange_of_succ N index mo_num hin) hlt
        (fun n' h1 h2 => hlast n' h1 (Nat.lt_succ_of_lt h2))

/-- An in-range entry that no record assigns keeps the zero of `calloc`. -/
theorem tensor_unwritten (N : Nat) (index : Nat → Int) (value : Nat → ℚ) (mo_num : Nat)
    (hin : InRange N index mo_num) (p q r s : Int) (ht : InTensor mo_num p q r s)
    (hnone : ∀ n, n < N → (p, q, r, s) ∉ record_sym8 index n) :
    MO_TEI p q r s (HF_mo_tei N index value mo_num) mo_num = 0 := by
  induction N with
  | zero => rfl
  | succ N ih =>
    have hrec := InRange_record (N + 1) index mo_num hin N (Nat.lt_succ_self N)
    rw [tensor_succ N index value mo_num hrec p q r s ht,
      if_neg (hnone N (Nat.lt_succ_self N))]
    exact ih (InRange_of_succ N index mo_num hin) (fun n h => hnone n (Nat.lt_succ_of_lt h))

theorem foldl_const_acc {α β : Type} (L : List α) (s : β) :
    L.foldl (fun acc _ => acc) s = s := by
  induction L with
  | nil => rfl
  | cons x xs ih => simp [ih]

theorem InRange_zero_index (n_integrals mo_num : Nat) (hmo : 0 < mo_num) :
    InRange n_integrals (fun _ => 0) mo_num := by
  intro n _ c _
  refine ⟨le_refl 0, ?_⟩
  show (0 : Int) < (mo_num : Int)
  exact_mod_cast hmo

/-! ## The Hartree-Fock and MP2 formulas -/

/-- C1: for `mo_num > 0`, `n_occ ≤ mo_num` and an in-range sparse list,
`compute_HF_energy` returns
`E_nn + 2 * Σ_{i<n_occ} h[i*mo_num+i] + Σ_{i<n_occ} Σ_{j<n_occ} (2*T(i,j,i,j) - T(i,j,j,i))`,
with `T` the dense tensor filled by the population loop from the sparse list. -/
theorem compute_HF_energy_formula (mo_num n_occ : Nat) (E_NN : ℚ) (one_e_integrals : Nat → ℚ)
    (n_integrals : Nat) (index : Nat → Int) (value : Nat → ℚ)
    (_hmo : 0 < mo_num) (_hocc : n_occ ≤ mo_num) (_hin : InRange n_integrals index mo_num) :
    compute_HF_energy E_NN one_e_integrals n_integrals index value mo_num n_occ
      = E_NN + 2 * (∑ i in Finset.range n_occ, one_e_integrals (i * mo_num + i))
        + ∑ i in Finset.range n_occ, ∑ j in Finset.range n_occ,
            (2 * MO_TEI i j i j (HF_mo_tei n_integrals index value mo_num) mo_num
              - MO_TEI i j j i (HF_mo_tei n_integrals index value mo_num) mo_num) :=
  compute_HF_energy_eq E_NN one_e_integrals n_integrals index value mo_num n_occ

/-- Instance of C1: two orbitals, one occupied, `h = -1` everywhere, the single
record `(0,0,0,0, 1/2)` and `E_nn = 0`; the formula evaluates to `-3/2`. -/
theorem compute_HF_energy_formula_witness :
    (0 < 2 ∧ 1 ≤ 2 ∧ InRange 1 (fun _ => 0) 2) ∧
      compute_HF_energy 0 (fun _ => -1) 1 (fun _ => 0) (fun _ => 1 / 2) 2 1 = -3 / 2 := by
  refine ⟨⟨by decide, by decide, InRange_zero_index 1 2 (by decide)⟩, ?_⟩
  rw [compute_HF_energy_formula 2 1 0 (fun _ => -1) 1 (fun _ => 0) (fun _ => 1 / 2)
    (by decide) (by decide) (InRange_zero_index 1 2 (by decide))]
  norm_num [HF_mo_tei, MO_TEI, MO_TEI_assign, MO_TEI_index, calloc_double, List.range_succ]

/-- C2: for `mo_num > 0`, `n_occ ≤ mo_num`, an in-range sparse list and orbital
energies for which no denominator vanishes, `compute_MP2_energy` returns the
(finite) sum over `i, j` in `[0, n_occ)` and `a, b` in `[n_occ, mo_num)` of
`T(i,j,a,b) * (2*T(i,j,a,b) - T(i,j,b,a)) / (e_i + e_j - e_a - e_b)`, with `T` the
dense tensor filled by the population loop from the sparse list. -/
theorem compute_MP2_energy_formula (mo_num n_occ : Nat) (mo_energy : Nat → ℚ)
    (n_integrals : Nat) (index : Nat → Int) (value : Nat → ℚ)
    (_hmo : 0 < mo_num) (_hocc : n_occ ≤ mo_num) (_hin : InRange n_integrals index mo_num)
    (hden : NonDegenerate mo_energy mo_num n_occ) :
    compute_MP2_energy mo_energy mo_num n_occ n_integrals index value
      = some (∑ i in Finset.range n_occ, ∑ j in Finset.range n_occ,
          ∑ a in Finset.Ico n_occ mo_num, ∑ b in Finset.Ico n_occ mo_num,
            MO_TEI i j a b (MP2_mo_tei n_integrals index value mo_num) mo_num
              * (2 * MO_TEI i j a b (MP2_mo_tei n_integrals index value mo_num) mo_num
                  - MO_TEI i j b a (MP2_mo_tei n_integrals index value mo_num) mo_num)
              / (mo_energy i + mo_energy j - mo_energy a - mo_energy b)) :=
  compute_MP2_energy_eq mo_energy mo_num n_occ n_integrals index value hden

theorem NonDegenerate_two_one (mo_energy : Nat → ℚ) (h : mo_energy 0 ≠ mo_energy 1) :
    NonDegenerate mo_energy 2 1 := by
  intro i j a b hi hj ha ha' hb hb'
  have hi0 : i = 0 := by omega
  have hj0 : j = 0 := by omega
  have ha1 : a = 1 := by omega
  have hb1 : b = 1 := by omega
  subst hi0 hj0 ha1 hb1
  intro h0
  apply h
  linarith

/-- Instance of C2: two orbitals with energies `0` and `1`, one occupied, and the
single record `(0,0,1,1, 1/2)`, which fills `<00|11>`; the only term is
`(1/2) * (2 * (1/2) - 1/2) / (0 + 0 - 1 - 1) = -1/8`. -/
theorem compute_MP2_energy_formula_witness :
    (0 < 2 ∧ 1 ≤ 2 ∧ InRange 1 (fun n => if n < 2 then 0 else 1) 2
        ∧ NonDegenerate (fun n => (n : ℚ)) 2 1) ∧
      compute_MP2_energy (fun n => (n : ℚ)) 2 1 1 (fun n => if n < 2 then 0 else 1)
        (fun _ => 1 / 2) = some (-1 / 8) := by
  have hin : InRange 1 (fun n => if n < 2 then 0 else 1) 2 := by
    intro n _ c _
    by_cases h : 4 * n + c < 2 <;> simp [h]
  have hden : NonDegenerate (fun n => (n : ℚ)) 2 1 := NonDegenerate_two_one _ (by norm_num)
  refine ⟨⟨by decide, by decide, hin, hden⟩, ?_⟩
  rw [compute_MP2_energy_formula 2 1 (fun n => (n : ℚ)) 1 (fun n => if n < 2 then 0 else 1)
    (fun _ => 1 / 2) (by decide) (by decide) hin hden]
  norm_num [MP2_mo_tei, MO_TEI, MO_TEI_assign, MO_TEI_index, calloc_double, List.range_succ]

/-! ## The expanded tensor -/

/-- C3: for `mo_num > 0` and an in-range sparse list of any length (duplicates
and conflicting values allowed), the dense tensor built by the population loop
of `compute_HF_energy` or of `compute_MP2_energy` satisfies, at every tuple of
`[0, mo_num)^4`,
`T(i,j,k,l) = T(i,l,k,j) = T(k,l,i,j) = T(k,j,i,l) = T(j,i,l,k) = T(l,i,j,k)
 = T(l,k,j,i) = T(j,k,l,i)`. -/
theorem tensor_symmetry_invariant (mo_num n_integrals : Nat) (index : Nat → Int)
    (value : Nat → ℚ) (mo_tei : Int → ℚ) (i j k l : Int)
    (_hmo : 0 < mo_num) (hin : InRange n_integrals index mo_num)
    (hT : mo_tei = HF_mo_tei n_integrals index value mo_num
      ∨ mo_tei = MP2_mo_tei n_integrals index value mo_num)
    (ht : InTensor mo_num i j k l) :
    MO_TEI i j k l mo_tei mo_num = MO_TEI i l k j mo_tei mo_num
      ∧ MO_TEI i l k j mo_tei mo_num = MO_TEI k l i j mo_tei mo_num
      ∧ MO_TEI k l i j mo_tei mo_num = MO_TEI k j i l mo_tei mo_num
      ∧ MO_TEI k j i l mo_tei mo_num = MO_TEI j i l k mo_tei mo_num
      ∧ MO_TEI j i l k mo_tei mo_num = MO_TEI l i j k mo_tei mo_num
      ∧ MO_TEI l i j k mo_tei mo_num = MO_TEI l k j i mo_tei mo_num
      ∧ MO_TEI l k j i mo_tei mo_num = MO_TEI j k l i mo_tei mo_num := by
  have hT' : mo_tei = HF_mo_tei n_integrals index value mo_num := by
    rcases hT with h | h
    · exact h
    · rw [h, MP2_mo_tei_eq]
  subst hT'
  have e : ∀ p q r s : Int, (p, q, r, s) ∈ sym8 i j k l →
      MO_TEI p q r s (HF_mo_tei n_integrals index value mo_num) mo_num
        = MO_TEI i j k l (HF_mo_tei n_integrals index value mo_num) mo_num :=
    fun p q r s hp => tensor_sym n_integrals index value mo_num hin i j k l p q r s ht hp
  have e1 := e i l k j (by simp [sym8])
  have e2 := e k l i j (by simp [sym8])
  have e3 := e k j i l (by simp [sym8])
  have e4 := e j i l k (by simp [sym8])
  have e5 := e l i j k (by simp [sym8])
  have e6 := e l k j i (by simp [sym8])
  have e7 := e j k l i (by simp [sym8])
  exact ⟨e1.symm, e1.trans e2.symm, e2.trans e3.symm, e3.trans e4.symm, e4.trans e5.symm,
    e5.trans e6.symm, e6.trans e7.symm⟩

/-- Instance of C3: two orbitals and the two conflicting records `(0,1,0,1, 1)`
and `(1,0,1,0, 2)`, read at the tuple `(0,1,0,1)`. -/
theorem tensor_symmetry_invariant_witness :
    (0 < 2 ∧ InRange 2 (fun n => [0, 1, 0, 1, 1, 0, 1, 0].getD n 0) 2
        ∧ InTensor 2 0 1 0 1) ∧
      MO_TEI 0 1 0 1 (HF_mo_tei 2
          (fun n => [0, 1, 0, 1, 1, 0, 1, 0].getD n 0)
          (fun n => (n : ℚ) + 1) 2) 2
        = MO_TEI 1 0 1 0 (HF_mo_tei 2
          (fun n => [0, 1, 0, 1, 1, 0, 1, 0].getD n 0)
          (fun n => (n : ℚ) + 1) 2) 2 := by
  have hin : InRange 2 (fun n => [0, 1, 0, 1, 1, 0, 1, 0].getD n 0) 2 := by
    intro n hn c hc
    interval_cases n <;> interval_cases c <;> simp
  have ht : InTensor 2 0 1 0 1 := by
    unfold InTensor
    norm_num
  exact ⟨⟨by decide, hin, ht⟩,
    (tensor_symmetry_invariant 2 2 _ (fun n => (n : ℚ) + 1) _ 0 1 0 1 (by decide) hin
      (Or.inl rfl) ht).2.2.2.1⟩

/-- C4, as stated, fails: with one orbital and the two records `(0,0,0,0, 1)`
and `(0,0,0,0, 2)`, the tuple `(0,0,0,0)` is one of the eight tuples of record 0,
whose value is `1`, but after the loop the tensor holds `2` there. -/
theorem symmetry_closure_overwritten :
    (0 < 1 ∧ InRange 2 (fun _ => 0) 1 ∧ (0, 0, 0, 0) ∈ record_sym8 (fun _ => 0) 0) ∧
      (fun n : Nat => if n = 0 then (1 : ℚ) else 2) 0 = 1 ∧
      MO_TEI 0 0 0 0 (HF_mo_tei 2 (fun _ => 0) (fun n => if n = 0 then 1 else 2) 1) 1 = 2 := by
  refine ⟨⟨by decide, InRange_zero_index 2 1 (by decide), by simp [record_sym8, sym8]⟩, ?_, ?_⟩
  · simp
  · norm_num [HF_mo_tei, MO_TEI, MO_TEI_assign, MO_TEI_index, calloc_double, List.range_succ]

/-- C4, amended: for `mo_num > 0`, an in-range sparse list and a record
`(i,j,k,l,v)` of it that is not followed by a later record whose eight tuples
include `(i,j,k,l)`, after the population loop (of `compute_HF_energy` or of
`compute_MP2_energy`) has processed the whole list the dense tensor holds `v` at
each of the eight tuples `(i,j,k,l)`, `(i,l,k,j)`, `(k,l,i,j)`, `(k,j,i,l)`,
`(j,i,l,k)`, `(l,i,j,k)`, `(l,k,j,i)`, `(j,k,l,i)`. -/
theorem symmetry_closure_last_record (mo_num n_integrals : Nat) (index : Nat → Int)
    (value : Nat → ℚ) (mo_tei : Int → ℚ) (n : Nat)
    (_hmo : 0 < mo_num) (hin : InRange n_integrals index mo_num)
    (hT : mo_tei = HF_mo_tei n_integrals index value mo_num
      ∨ mo_tei = MP2_mo_tei n_integrals index value mo_num)
    (hn : n < n_integrals)
    (hlast : ∀ n', n < n' → n' < n_integrals →
      (index (4 * n + 0), index (4 * n + 1), index (4 * n + 2), index (4 * n + 3))
        ∉ record_sym8 index n') :
    ∀ p q r s : Int, (p, q, r, s) ∈ sym8 (index (4 * n + 0)) (index (4 * n + 1))
        (index (4 * n + 2)) (index (4 * n + 3)) →
      MO_TEI p q r s mo_tei mo_num = value n := by
  have hT' : mo_tei = HF_mo_tei n_integrals index value mo_num := by
    rcases hT with h | h
    · exact h
    · rw [h, MP2_mo_tei_eq]
  subst hT'
  intro p q r s hp
  have hrec := InRange_record n_integrals index mo_num hin n hn
  refine tensor_last_write n_integrals index value mo_num hin p q r s
    (InTensor_of_mem_sym8 mo_num _ _ _ _ p q r s hrec hp) n hn hp ?_
  intro n' h1 h2 hmem
  apply hlast n' h1 h2
  unfold record_sym8 at hmem ⊢
  exact (sym8_mem_congr _ _ _ _ _ _ _ _ (p, q, r, s) hp).mp hmem

/-- Instance of the amended C4: with two orbitals and the records `(0,1,0,1, 1)`
and `(0,0,0,0, 2)`, record 0 is followed by no record assigning `(0,1,0,1)`, and
the tensor holds its value `1` at `(1,0,1,0)`. -/
theorem symmetry_closure_last_record_witness :
    (0 < 2 ∧ InRange 2 (fun n => [0, 1, 0, 1, 0, 0, 0, 0].getD n 0) 2 ∧ 0 < 2) ∧
      MO_TEI 1 0 1 0 (HF_mo_tei 2 (fun n => [0, 1, 0, 1, 0, 0, 0, 0].getD n 0)
        (fun n => (n : ℚ) + 1) 2) 2 = (fun n : Nat => (n : ℚ) + 1) 0 := by
  have hin : InRange 2 (fun n => [0, 1, 0, 1, 0, 0, 0, 0].getD n 0) 2 := by
    intro n hn c hc
    interval_cases n <;> interval_cases c <;> simp
  refine ⟨⟨by decide, hin, by decide⟩, ?_⟩
  refine symmetry_closure_last_record 2 2 _ (fun n => (n : ℚ) + 1) _ 0 (by decide) hin
    (Or.inl rfl) (by decide) ?_ 1 0 1 0 (by simp [sym8])
  intro n' h1 h2
  have hn' : n' = 1 := by omega
  subst hn'
  simp [record_sym8, sym8]

/-- C5: for `mo_num > 0`, an in-range sparse list and a tuple `t` of
`[0, mo_num)^4`, the entry at `t` of the dense tensor built by the population
loop (of `compute_HF_energy` or of `compute_MP2_energy`) is the value of the last
record of the list whose eight tuples include `t`, and is `0` when no record's
eight tuples include `t`.  The value is the record's own value: nothing is added
up when several of the eight tuples coincide. -/
theorem tensor_last_write_wins (mo_num n_integrals : Nat) (index : Nat → Int)
    (value : Nat → ℚ) (mo_tei : Int → ℚ) (p q r s : Int)
    (_hmo : 0 < mo_num) (hin : InRange n_integrals index mo_num)
    (hT : mo_tei = HF_mo_tei n_integrals index value mo_num
      ∨ mo_tei = MP2_mo_tei n_integrals index value mo_num)
    (ht : InTensor mo_num p q r s) :
    (∀ n, n < n_integrals → (p, q, r, s) ∈ record_sym8 index n →
        (∀ n', n < n' → n' < n_integrals → (p, q, r, s) ∉ record_sym8 index n') →
        MO_TEI p q r s mo_tei mo_num = value n)
      ∧ ((∀ n, n < n_integrals → (p, q, r, s) ∉ record_sym8 index n) →
        MO_TEI p q r s mo_tei mo_num = 0) := by
  have hT' : mo_tei = HF_mo_tei n_integrals index value mo_num := by
    rcases hT with h | h
    · exact h
    · rw [h, MP2_mo_tei_eq]
  subst hT'
  exact ⟨fun n hn hmem hlast =>
      tensor_last_write n_integrals index value mo_num hin p q r s ht n hn hmem hlast,
    fun hnone => tensor_unwritten n_integrals index value mo_num hin p q r s ht hnone⟩

/-- Instance of C5: with one orbital and the records `(0,0,0,0, 1)` and
`(0,0,0,0, 2)`, the entry at `(0,0,0,0)` is `2`, the value of the last record
(neither `1`, nor a sum). -/
theorem tensor_last_write_wins_witness :
    (0 < 1 ∧ InRange 2 (fun _ => 0) 1 ∧ InTensor 1 0 0 0 0) ∧
      MO_TEI 0 0 0 0 (MP2_mo_tei 2 (fun _ => 0) (fun n => if n = 0 then 1 else 2) 1) 1
        = (fun n : Nat => if n = 0 then (1 : ℚ) else 2) 1 := by
  have hin : InRange 2 (fun _ => 0) 1 := InRange_zero_index 2 1 (by decide)
  have ht : InTensor 1 0 0 0 0 := by
    unfold InTensor
    norm_num
  refine ⟨⟨by decide, hin, ht⟩, ?_⟩
  refine (tensor_last_write_wins 1 2 (fun _ => 0) (fun n => if n = 0 then 1 else 2) _ 0 0 0 0
    (by decide) hin (Or.inr rfl) ht).1 1 (by decide) (by simp [record_sym8, sym8]) ?_
  intro n' h1 h2
  omega

/-! ## Edge cases of the two energies -/

/-- C6: for `mo_num > 0`, any `E_nn`, any one-electron matrix and any in-range
sparse list, `compute_HF_energy` called with `n_occ = 0` returns exactly `E_nn`. -/
theorem compute_HF_energy_no_occupied (mo_num : Nat) (E_NN : ℚ) (one_e_integrals : Nat → ℚ)
    (n_integrals : Nat) (index : Nat → Int) (value : Nat → ℚ)
    (_hmo : 0 < mo_num) (_hin : InRange n_integrals index mo_num) :
    compute_HF_energy E_NN one_e_integrals n_integrals index value mo_num 0 = E_NN := by
  simp [compute_HF_energy]

/-- Instance of C6: three orbitals, `E_nn = 7/2`, `h = 5` everywhere and the
record `(0,0,0,0, 9)`. -/
theorem compute_HF_energy_no_occupied_witness :
    (0 < 3 ∧ InRange 1 (fun _ => 0) 3) ∧
      compute_HF_energy (7 / 2) (fun _ => 5) 1 (fun _ => 0) (fun _ => 9) 3 0 = 7 / 2 :=
  ⟨⟨by decide, InRange_zero_index 1 3 (by decide)⟩,
    compute_HF_energy_no_occupied 3 (7 / 2) (fun _ => 5) 1 (fun _ => 0) (fun _ => 9)
      (by decide) (InRange_zero_index 1 3 (by decide))⟩

/-- C7: for `mo_num > 0`, any orbital energies and any in-range sparse list
(whatever its values), `compute_MP2_energy` returns exactly `0` when
`n_occ = mo_num` (no virtual orbital) and when `n_occ = 0` (no occupied
orbital). -/
theorem compute_MP2_energy_empty (mo_num : Nat) (mo_energy : Nat → ℚ) (n_integrals : Nat)
    (index : Nat → Int) (value : Nat → ℚ)
    (_hmo : 0 < mo_num) (_hin : InRange n_integrals index mo_num) :
    compute_MP2_energy mo_energy mo_num mo_num n_integrals index value = some 0
      ∧ compute_MP2_energy mo_energy mo_num 0 n_integrals index value = some 0 := by
  constructor
  · simp [compute_MP2_energy, foldl_const_acc]
  · simp [compute_MP2_energy]

/-- Instance of C7: two orbitals of equal energy and the record `(0,0,0,0, 9)`. -/
theorem compute_MP2_energy_empty_witness :
    (0 < 2 ∧ InRange 1 (fun _ => 0) 2) ∧
      compute_MP2_energy (fun _ => 1) 2 2 1 (fun _ => 0) (fun _ => 9) = some 0
      ∧ compute_MP2_energy (fun _ => 1) 2 0 1 (fun _ => 0) (fun _ => 9) = some 0 :=
  ⟨⟨by decide, InRange_zero_index 1 2 (by decide)⟩,
    compute_MP2_energy_empty 2 (fun _ => 1) 1 (fun _ => 0) (fun _ => 9)
      (by decide) (InRange_zero_index 1 2 (by decide))⟩

/-- C8: for `n_occ = 1` and every `mo_num ≥ 1`, `compute_HF_energy` returns
`E_nn + 2*h_00 + T(0,0,0,0)` (the term `2*<00|00> - <00|00>`); in particular with
`h_00 = -1`, the single sparse record `(0,0,0,0, 1/2)` and `E_nn = 0` it returns
`-3/2`. -/
theorem compute_HF_energy_closed_shell (mo_num : Nat) (_hmo : 1 ≤ mo_num) :
    (∀ (E_NN : ℚ) (one_e_integrals : Nat → ℚ) (n_integrals : Nat) (index : Nat → Int)
        (value : Nat → ℚ), InRange n_integrals index mo_num →
        compute_HF_energy E_NN one_e_integrals n_integrals index value mo_num 1
          = E_NN + 2 * one_e_integrals 0
            + MO_TEI 0 0 0 0 (HF_mo_tei n_integrals index value mo_num) mo_num)
      ∧ (∀ (one_e_integrals : Nat → ℚ) (index : Nat → Int) (value : Nat → ℚ),
        one_e_integrals 0 = -1 →
        index 0 = 0 → index 1 = 0 → index 2 = 0 → index 3 = 0 → value 0 = 1 / 2 →
        compute_HF_energy 0 one_e_integrals 1 index value mo_num 1 = -3 / 2) := by
  have key : ∀ (E_NN : ℚ) (one_e_integrals : Nat → ℚ) (n_integrals : Nat) (index : Nat → Int)
      (value : Nat → ℚ),
      compute_HF_energy E_NN one_e_integrals n_integrals index value mo_num 1
        = E_NN + 2 * one_e_integrals 0
          + MO_TEI 0 0 0 0 (HF_mo_tei n_integrals index value mo_num) mo_num := by
    intro E_NN one_e_integrals n_integrals index value
    rw [compute_HF_energy_eq]
    simp only [Finset.sum_range_one, Nat.zero_mul, Nat.add_zero, Nat.cast_zero]
    ring
  refine ⟨fun E_NN h n index value _ => key E_NN h n index value, ?_⟩
  intro h index value h00 i0 i1 i2 i3 v0
  rw [key, h00, HF_mo_tei_succ 0 index value mo_num]
  simp only [Nat.mul_zero, Nat.zero_add, i0, i1, i2, i3, v0]
  have h0 : store8 0 0 0 0 (HF_mo_tei 0 index value mo_num) mo_num (1 / 2)
      (MO_TEI_index 0 0 0 0 mo_num) = 1 / 2 := by
    simp [store8, MO_TEI_assign]
  unfold MO_TEI
  rw [h0]
  norm_num

/-- Instance of C8: four orbitals, `h = -1` everywhere and the single record
`(0,0,0,0, 1/2)`. -/
theorem compute_HF_energy_closed_shell_witness :
    1 ≤ 4 ∧ compute_HF_energy 0 (fun _ => -1) 1 (fun _ => 0) (fun _ => 1 / 2) 4 1 = -3 / 2 :=
  ⟨by decide, (compute_HF_energy_closed_shell 4 (by decide)).2 (fun _ => -1) (fun _ => 0)
    (fun _ => 1 / 2) rfl rfl rfl rfl rfl rfl⟩

/-- C9, as stated, fails: for `mo_num = 2`, `n_occ = 1` and an empty sparse list,
with `E_nn = 0` and the one-electron matrix whose entries are all `1`,
`compute_HF_energy` returns `2`, not `E_nn = 0`. -/
theorem compute_HF_energy_zero_fill_fails :
    compute_HF_energy 0 (fun _ => 1) 0 (fun _ => 0) (fun _ => 0) 2 1 = 2
      ∧ compute_HF_energy 0 (fun _ => 1) 0 (fun _ => 0) (fun _ => 0) 2 1 ≠ 0 := by
  have h : compute_HF_energy 0 (fun _ => 1) 0 (fun _ => 0) (fun _ => 0) 2 1 = 2 := by
    norm_num [compute_HF_energy, HF_mo_tei, MO_TEI, calloc_double, List.range_succ]
  exact ⟨h, by rw [h]; norm_num⟩

/-- C9, amended: for `mo_num = 2`, `n_occ = 1` and an empty sparse list, for every
`E_nn` and every one-electron matrix, `compute_HF_energy` returns exactly
`E_nn + 2*h_00` (with `h_00 = one_e_integrals[0]`). -/
theorem compute_HF_energy_zero_fill (E_NN : ℚ) (one_e_integrals : Nat → ℚ)
    (index : Nat → Int) (value : Nat → ℚ) :
    compute_HF_energy E_NN one_e_integrals 0 index value 2 1
      = E_NN + 2 * one_e_integrals 0 := by
  simp [compute_HF_energy, HF_mo_tei, MO_TEI, calloc_double, List.range_succ]

/-- C10, as stated, fails: for `mo_num = 2`, `n_occ = 1`, an empty sparse list and
the two equal orbital energies `e_0 = e_1 = 1`, the only term of the loop is
`0 / 0`, and `compute_MP2_energy` returns a non-finite value, not `0`. -/
theorem compute_MP2_energy_zero_fill_fails :
    compute_MP2_energy (fun _ => 1) 2 1 0 (fun _ => 0) (fun _ => 0) = none
      ∧ compute_MP2_energy (fun _ => 1) 2 1 0 (fun _ => 0) (fun _ => 0) ≠ some 0 := by
  have h : compute_MP2_energy (fun _ => 1) 2 1 0 (fun _ => 0) (fun _ => 0) = none := by
    simp [compute_MP2_energy, MP2_mo_tei, MO_TEI, calloc_double, List.range_succ, List.range',
      double_add, double_div]
  exact ⟨h, by rw [h]; simp⟩

/-- C10, amended: for an empty sparse list, `compute_MP2_energy` returns exactly
`0` for every `mo_num > 0`, every `n_occ ≤ mo_num` and every orbital-energy array
for which no denominator `e_i + e_j - e_a - e_b` (`i, j < n_occ ≤ a, b < mo_num`)
is zero; in particular for `mo_num = 2`, `n_occ = 1` with any two distinct
orbital energies `e_0 ≠ e_1`. -/
theorem compute_MP2_energy_zero_fill (mo_num n_occ : Nat) (mo_energy : Nat → ℚ)
    (index : Nat → Int) (value : Nat → ℚ)
    (_hmo : 0 < mo_num) (_hocc : n_occ ≤ mo_num) :
    (NonDegenerate mo_energy mo_num n_occ →
        compute_MP2_energy mo_energy mo_num n_occ 0 index value = some 0)
      ∧ (mo_energy 0 ≠ mo_energy 1 →
        compute_MP2_energy mo_energy 2 1 0 index value = some 0) := by
  have key : ∀ (m o : Nat), NonDegenerate mo_energy m o →
      compute_MP2_energy mo_energy m o 0 index value = some 0 := by
    intro m o hden
    rw [compute_MP2_energy_eq mo_energy m o 0 index value hden]
    simp [MP2_term, MP2_mo_tei, MO_TEI, calloc_double]
  exact ⟨key mo_num n_occ, fun h => key 2 1 (NonDegenerate_two_one mo_energy h)⟩

/-- Instance of the amended C10: three orbitals with energies `0, 1, 2`, one of
them occupied, and an empty sparse list. -/
theorem compute_MP2_energy_zero_fill_witness :
    (0 < 3 ∧ 1 ≤ 3 ∧ NonDegenerate (fun n => (n : ℚ)) 3 1) ∧
      compute_MP2_energy (fun n => (n : ℚ)) 3 1 0 (fun _ => 0) (fun _ => 0) = some 0 := by
  have hden : NonDegenerate (fun n => (n : ℚ)) 3 1 := by
    intro i j a b hi hj ha _ hb _
    have hi0 : i = 0 := by omega
    have hj0 : j = 0 := by omega
    subst hi0 hj0
    have ha1 : (1 : ℚ) ≤ (a : ℚ) := by exact_mod_cast ha
    have hb1 : (1 : ℚ) ≤ (b : ℚ) := by exact_mod_cast hb
    simp only [Nat.cast_zero]
    intro h0
    linarith
  exact ⟨⟨by decide, by decide, hden⟩,
    (compute_MP2_energy_zero_fill 3 1 (fun n => (n : ℚ)) (fun _ => 0) (fun _ => 0)
      (by decide) (by decide)).1 hden⟩

/-! ## Records of virtual orbitals and the Hartree-Fock energy -/

theorem records_succ (N : Nat) (index : Nat → Int) (value : Nat → ℚ) :
    records (N + 1) index value = records N index value ++ [record index value N] := by
  unfold records
  rw [List.range_succ, List.map_append]
  rfl

theorem last_value_concat (L : List ((Int × Int × Int × Int) × ℚ))
    (r : (Int × Int × Int × Int) × ℚ) (t : Int × Int × Int × Int) :
    last_value (L ++ [r]) t
      = if t ∈ sym8 r.1.1 r.1.2.1 r.1.2.2.1 r.1.2.2.2 then r.2 else last_value L t := by
  unfold last_value
  rw [List.foldl_append]
  rfl

/-- An in-range entry of the buffer after the population loop is the value of
the last record whose eight tuples include it. -/
theorem tensor_eq_last_value (N : Nat) (index : Nat → Int) (value : Nat → ℚ) (mo_num : Nat)
    (hin : InRange N index mo_num) (p q r s : Int) (ht : InTensor mo_num p q r s) :
    MO_TEI p q r s (HF_mo_tei N index value mo_num) mo_num
      = last_value (records N index value) (p, q, r, s) := by
  induction N with
  | zero => rfl
  | succ N ih =>
    have hrec := InRange_record (N + 1) index mo_num hin N (Nat.lt_succ_self N)
    rw [tensor_succ N index value mo_num hrec p q r s ht, records_succ, last_value_concat,
      ih (InRange_of_succ N index mo_num hin)]
    rfl

theorem foldl_filter_of_relevant (P : (Int × Int × Int × Int) × ℚ → Bool)
    (t : Int × Int × Int × Int) (L : List ((Int × Int × Int × Int) × ℚ)) (acc : ℚ)
    (hP : ∀ r, r ∈ L → t ∈ sym8 r.1.1 r.1.2.1 r.1.2.2.1 r.1.2.2.2 → P r = true) :
    (L.filter P).foldl
        (fun acc r => if t ∈ sym8 r.1.1 r.1.2.1 r.1.2.2.1 r.1.2.2.2 then r.2 else acc) acc
      = L.foldl
        (fun acc r => if t ∈ sym8 r.1.1 r.1.2.1 r.1.2.2.1 r.1.2.2.2 then r.2 else acc) acc := by
  induction L generalizing acc with
  | nil => rfl
  | cons r rest ih =>
    have hrest : ∀ r', r' ∈ rest →
        t ∈ sym8 r'.1.1 r'.1.2.1 r'.1.2.2.1 r'.1.2.2.2 → P r' = true :=
      fun r' hr' => hP r' (List.mem_cons_of_mem r hr')
    by_cases hPr : P r = true
    · rw [List.filter_cons_of_pos hPr, List.foldl_cons, List.foldl_cons, ih _ hrest]
    · have hnot : t ∉ sym8 r.1.1 r.1.2.1 r.1.2.2.1 r.1.2.2.2 :=
        fun hmem => hPr (hP r (List.mem_cons_self r rest) hmem)
      rw [List.filter_cons_of_neg hPr, List.foldl_cons, if_neg hnot, ih _ hrest]

theorem occupied_of_mem_sym8 (n_occ : Nat) (i j k l p q r s : Int)
    (hp : (p, q, r, s) ∈ sym8 i j k l)
    (hocc : p < (n_occ : Int) ∧ q < (n_occ : Int) ∧ r < (n_occ : Int) ∧ s < (n_occ : Int)) :
    i < (n_occ : Int) ∧ j < (n_occ : Int) ∧ k < (n_occ : Int) ∧ l < (n_occ : Int) := by
  simp only [sym8, List.mem_cons, List.mem_singleton, List.mem_nil_iff, or_false,
    Prod.mk.injEq] at hp
  obtain ⟨h1, h2, h3, h4⟩ := hocc
  rcases hp with ⟨rfl, rfl, rfl, rfl⟩ | ⟨rfl, rfl, rfl, rfl⟩ | ⟨rfl, rfl, rfl, rfl⟩ |
      ⟨rfl, rfl, rfl, rfl⟩ | ⟨rfl, rfl, rfl, rfl⟩ | ⟨rfl, rfl, rfl, rfl⟩ |
      ⟨rfl, rfl, rfl, rfl⟩ | ⟨rfl, rfl, rfl, rfl⟩ <;>
    exact ⟨by assumption, by assumption, by assumption, by assumption⟩

/-- An entry at a tuple of occupied orbitals depends only on the records of
occupied orbitals. -/
theorem last_value_occupied (n_integrals : Nat) (index : Nat → Int) (value : Nat → ℚ)
    (n_occ : Nat) (p q r s : Int)
    (hocc : p < (n_occ : Int) ∧ q < (n_occ : Int) ∧ r < (n_occ : Int) ∧ s < (n_occ : Int)) :
    last_value (occupied_records n_integrals index value n_occ) (p, q, r, s)
      = last_value (records n_integrals index value) (p, q, r, s) := by
  unfold last_value occupied_records
  apply foldl_filter_of_relevant
  intro rec _ hmem
  exact decide_eq_true (occupied_of_mem_sym8 n_occ _ _ _ _ p q r s hmem hocc)

/-- C11: for fixed `mo_num`, `n_occ ≤ mo_num` and `E_nn`, two runs of
`compute_HF_energy` return the same value whenever their one-electron matrices
agree on the diagonal entries `h_ii` with `i < n_occ` and their in-range sparse
lists differ only in records that have at least one index `≥ n_occ` (added,
removed or changed): the records with all four indices below `n_occ` are the same,
in the same order, in both lists. -/
theorem compute_HF_energy_ignores_virtual (mo_num n_occ : Nat) (E_NN : ℚ)
    (one_e_integrals one_e_integrals' : Nat → ℚ)
    (n_integrals n_integrals' : Nat) (index index' : Nat → Int) (value value' : Nat → ℚ)
    (hocc : n_occ ≤ mo_num)
    (hin : InRange n_integrals index mo_num) (hin' : InRange n_integrals' index' mo_num)
    (hdiag : ∀ i, i < n_occ →
      one_e_integrals (i * mo_num + i) = one_e_integrals' (i * mo_num + i))
    (hrec : occupied_records n_integrals index value n_occ
      = occupied_records n_integrals' index' value' n_occ) :
    compute_HF_energy E_NN one_e_integrals n_integrals index value mo_num n_occ
      = compute_HF_energy E_NN one_e_integrals' n_integrals' index' value' mo_num n_occ := by
  have key : ∀ a b c d : Nat, a < n_occ → b < n_occ → c < n_occ → d < n_occ →
      MO_TEI a b c d (HF_mo_tei n_integrals index value mo_num) mo_num
        = MO_TEI a b c d (HF_mo_tei n_integrals' index' value' mo_num) mo_num := by
    intro a b c d ha hb hc hd
    have hlt : ∀ x : Nat, x < n_occ → (0 : Int) ≤ (x : Int) ∧ (x : Int) < (mo_num : Int) :=
      fun x hx => ⟨Int.ofNat_nonneg x, by exact_mod_cast Nat.lt_of_lt_of_le hx hocc⟩
    have ht : InTensor mo_num a b c d := ⟨hlt a ha, hlt b hb, hlt c hc, hlt d hd⟩
    have ho : (a : Int) < (n_occ : Int) ∧ (b : Int) < (n_occ : Int) ∧ (c : Int) < (n_occ : Int)
        ∧ (d : Int) < (n_occ : Int) :=
      ⟨by exact_mod_cast ha, by exact_mod_cast hb, by exact_mod_cast hc, by exact_mod_cast hd⟩
    rw [tensor_eq_last_value n_integrals index value mo_num hin a b c d ht,
      tensor_eq_last_value n_integrals' index' value' mo_num hin' a b c d ht,
      ← last_value_occupied n_integrals index value n_occ a b c d ho,
      ← last_value_occupied n_integrals' index' value' n_occ a b c d ho, hrec]
  rw [compute_HF_energy_eq, compute_HF_energy_eq]
  congr 1
  · congr 2
    exact Finset.sum_congr rfl (fun i hi => hdiag i (Finset.mem_range.mp hi))
  · refine Finset.sum_congr rfl (fun i hi => Finset.sum_congr rfl (fun j hj => ?_))
    have hi' := Finset.mem_range.mp hi
    have hj' := Finset.mem_range.mp hj
    rw [key i j i j hi' hj' hi' hj', key i j j i hi' hj' hj' hi']

/-- Instance of C11: two orbitals, one occupied.  The first list is the single
record `(0,0,0,0, 1/2)`; the second adds the records `(0,0,1,1, 7)` before it and
`(1,1,1,1, 3)` after it, and its one-electron matrix differs from the first
outside `h_00`. -/
theorem compute_HF_energy_ignores_virtual_witness :
    (1 ≤ 2 ∧ InRange 1 (fun _ => 0) 2
        ∧ InRange 3 (fun n => [0, 0, 1, 1, 0, 0, 0, 0, 1, 1, 1, 1].getD n 0) 2) ∧
      compute_HF_energy 0 (fun _ => -1) 1 (fun _ => 0) (fun _ => 1 / 2) 2 1
        = compute_HF_energy 0 (fun n => if n = 0 then -1 else 9) 3
            (fun n => [0, 0, 1, 1, 0, 0, 0, 0, 1, 1, 1, 1].getD n 0)
            (fun n => [7, 1 / 2, 3].getD n 0) 2 1 := by
  have hin : InRange 1 (fun _ => 0) 2 := InRange_zero_index 1 2 (by decide)
  have hin' : InRange 3 (fun n => [0, 0, 1, 1, 0, 0, 0, 0, 1, 1, 1, 1].getD n 0) 2 := by
    intro n hn c hc
    interval_cases n <;> interval_cases c <;> simp
  refine ⟨⟨by decide, hin, hin'⟩, ?_⟩
  refine compute_HF_energy_ignores_virtual 2 1 0 _ _ 1 3 _ _ _ _ (by decide) hin hin' ?_ ?_
  · intro i hi
    have hi0 : i = 0 := by omega
    subst hi0
    simp
  · simp [occupied_records, records, record, List.range_succ, List.filter]

/-! ## Absent validation -/

/-- After the eight assignments of one iteration, the buffer holds the value at
the offset of each of the eight tuples, whatever the indices are. -/
theorem store8_holds (mo_num : Nat) (mo_tei : Int → ℚ) (val : ℚ) (i j k l p q r s : Int)
    (hp : (p, q, r, s) ∈ sym8 i j k l) :
    store8 i j k l mo_tei mo_num val (MO_TEI_index p q r s mo_num) = val := by
  simp only [sym8, List.mem_cons, List.mem_singleton, List.mem_nil_iff, or_false,
    Prod.mk.injEq] at hp
  rcases hp with ⟨rfl, rfl, rfl, rfl⟩ | ⟨rfl, rfl, rfl, rfl⟩ | ⟨rfl, rfl, rfl, rfl⟩ |
      ⟨rfl, rfl, rfl, rfl⟩ | ⟨rfl, rfl, rfl, rfl⟩ | ⟨rfl, rfl, rfl, rfl⟩ |
      ⟨rfl, rfl, rfl, rfl⟩ | ⟨rfl, rfl, rfl, rfl⟩ <;>
    simp [store8, MO_TEI_assign]

/-- C12, as stated, fails: no error is raised and tensor slots are written.  With
two orbitals, the record `(-1,2,-1,2, 5)` is out of range, yet the population
loops of both functions write `5` on the slot of the in-range tuple `(0,0,0,0)`,
which is none of the record's eight tuples, and `compute_HF_energy` returns `5`
for one occupied orbital; all the assignments of this record go to the offsets `0`
and `15`, inside the buffer of `16` elements.  Likewise the record `(0,0,0,2, 5)`
writes `5` on the slot of `(0,0,1,0)`; its assignment for the tuple `(2,0,0,0)`
has the offset `16`, outside the buffer, and is not prevented either. -/
theorem index_range_not_validated :
    (¬ InRange 1 (fun n => [-1, 2, -1, 2].getD n 0) 2
        ∧ InTensor 2 0 0 0 0
        ∧ (0, 0, 0, 0) ∉ record_sym8 (fun n => [-1, 2, -1, 2].getD n 0) 0
        ∧ MO_TEI 0 0 0 0 (HF_mo_tei 1 (fun n => [-1, 2, -1, 2].getD n 0) (fun _ => 5) 2) 2 = 5
        ∧ MO_TEI 0 0 0 0 (MP2_mo_tei 1 (fun n => [-1, 2, -1, 2].getD n 0) (fun _ => 5) 2) 2 = 5
        ∧ compute_HF_energy 0 (fun _ => 0) 1 (fun n => [-1, 2, -1, 2].getD n 0)
            (fun _ => 5) 2 1 = 5
        ∧ WritesInBuffer 1 (fun n => [-1, 2, -1, 2].getD n 0) 2)
      ∧ (¬ InRange 1 (fun n => [0, 0, 0, 2].getD n 0) 2
        ∧ InTensor 2 0 0 1 0
        ∧ (0, 0, 1, 0) ∉ record_sym8 (fun n => [0, 0, 0, 2].getD n 0) 0
        ∧ MO_TEI 0 0 1 0 (HF_mo_tei 1 (fun n => [0, 0, 0, 2].getD n 0) (fun _ => 5) 2) 2 = 5
        ∧ MO_TEI 0 0 1 0 (MP2_mo_tei 1 (fun n => [0, 0, 0, 2].getD n 0) (fun _ => 5) 2) 2
          = 5
        ∧ (2, 0, 0, 0) ∈ record_sym8 (fun n => [0, 0, 0, 2].getD n 0) 0
        ∧ ¬ InBuffer 2 (MO_TEI_index 2 0 0 0 2)) := by
  have e1 : MO_TEI 0 0 0 0 (HF_mo_tei 1 (fun n => [-1, 2, -1, 2].getD n 0) (fun _ => 5) 2) 2
      = 5 := by
    norm_num [HF_mo_tei, MO_TEI, MO_TEI_assign, MO_TEI_index, calloc_double, List.range_succ]
  have e2 : MO_TEI 0 0 1 0 (HF_mo_tei 1 (fun n => [0, 0, 0, 2].getD n 0) (fun _ => 5) 2) 2
      = 5 := by
    norm_num [HF_mo_tei, MO_TEI, MO_TEI_assign, MO_TEI_index, calloc_double, List.range_succ]
  refine ⟨⟨?_, ?_, ?_, e1, ?_, ?_, ?_⟩, ?_, ?_, ?_, e2, ?_, ?_, ?_⟩
  · intro h
    have h0 := (h 0 (by decide) 0 (by decide)).1
    simp at h0
  · unfold InTensor
    norm_num
  · decide
  · rw [MP2_mo_tei_eq]
    exact e1
  · norm_num [compute_HF_energy, HF_mo_tei, MO_TEI, MO_TEI_assign, MO_TEI_index, calloc_double,
      List.range_succ]
  · intro n hn p q r s hmem
    have hn0 : n = 0 := by omega
    subst hn0
    simp only [record_sym8, sym8, List.mem_cons, List.mem_singleton, List.mem_nil_iff,
      or_false, Prod.mk.injEq] at hmem
    rcases hmem with ⟨rfl, rfl, rfl, rfl⟩ | ⟨rfl, rfl, rfl, rfl⟩ | ⟨rfl, rfl, rfl, rfl⟩ |
        ⟨rfl, rfl, rfl, rfl⟩ | ⟨rfl, rfl, rfl, rfl⟩ | ⟨rfl, rfl, rfl, rfl⟩ |
        ⟨rfl, rfl, rfl, rfl⟩ | ⟨rfl, rfl, rfl, rfl⟩ <;>
      norm_num [InBuffer, MO_TEI_index]
  · intro h
    have h0 := (h 0 (by decide) 3 (by decide)).2
    simp at h0
  · unfold InTensor
    norm_num
  · decide
  · rw [MP2_mo_tei_eq]
    exact e2
  · decide
  · norm_num [InBuffer, MO_TEI_index]

/-! ## The read paths of the two-electron integrals -/

/-- C14: the read path of `project1/HW1/src/hf_energy.c` fails whenever the number
of records delivered (`buffer_size` after the bulk read) differs from the
declared count `n_integrals`; the read path of `project1/src/hf_energy.c` and the
inline read of the standalone `main` do not: with a declared count of `2`, every
call successful and `1` record delivered, both go on with `2` integrals taken as
read. -/
theorem read_size_mismatch :
    (∀ (rc_size_success : Bool) (n_integrals : Int)
        (index_allocated value_allocated rc_read_success : Bool) (buffer_size : Int),
        buffer_size ≠ n_integrals →
        read_two_electron_integrals rc_size_success n_integrals index_allocated
          value_allocated rc_read_success buffer_size = none)
      ∧ read_two_electron_integrals true 2 true true true 1 = none
      ∧ read_two_electron_integrals_src true 2 true true true 1 = some 2
      ∧ main_read_two_electron_integrals true 2 true true true 1 = some 2 := by
  refine ⟨?_, by decide, by decide, by decide⟩
  intro rc n ia va rr bs h
  unfold read_two_electron_integrals
  simp [h]

/-! ## The flat offset: bounds, injectivity and `size_t` evaluation -/

theorem digit_bound (a b m M : Nat) (ha : a < M) (hb : b < m) : a * m + b < M * m :=
  calc a * m + b < a * m + m := Nat.add_lt_add_left hb _
    _ = (a + 1) * m := (Nat.succ_mul a m).symm
    _ ≤ M * m := Nat.mul_le_mul_right m ha

theorem InTensor_nat (mo_num : Nat) (i j k l : Int) (ht : InTensor mo_num i j k l) :
    ∃ a b c d : Nat, i = (a : Int) ∧ j = (b : Int) ∧ k = (c : Int) ∧ l = (d : Int)
      ∧ a < mo_num ∧ b < mo_num ∧ c < mo_num ∧ d < mo_num := by
  obtain ⟨⟨hi0, hi⟩, ⟨hj0, hj⟩, ⟨hk0, hk⟩, ⟨hl0, hl⟩⟩ := ht
  obtain ⟨a, rfl⟩ := Int.eq_ofNat_of_zero_le hi0
  obtain ⟨b, rfl⟩ := Int.eq_ofNat_of_zero_le hj0
  obtain ⟨c, rfl⟩ := Int.eq_ofNat_of_zero_le hk0
  obtain ⟨d, rfl⟩ := Int.eq_ofNat_of_zero_le hl0
  exact ⟨a, b, c, d, rfl, rfl, rfl, rfl, by exact_mod_cast hi, by exact_mod_cast hj,
    by exact_mod_cast hk, by exact_mod_cast hl⟩

/-- The exact flat offset of an in-range tuple, as a natural number below
`mo_num^4`. -/
theorem MO_TEI_index_nat (mo_num a b c d : Nat) (ha : a < mo_num) (hb : b < mo_num)
    (hc : c < mo_num) (hd : d < mo_num) :
    MO_TEI_index a b c d mo_num = (((((a * mo_num + b) * mo_num + c) * mo_num + d : Nat)) : Int)
      ∧ ((a * mo_num + b) * mo_num + c) * mo_num + d < mo_num * mo_num * mo_num * mo_num := by
  constructor
  · unfold MO_TEI_index
    push_cast
    ring
  · exact digit_bound _ d mo_num _ (digit_bound _ c mo_num _ (digit_bound a b mo_num _ ha hb) hc) hd

theorem size_t_of_int_natCast (a : Nat) (h : a < SIZE_T_MOD) : size_t_of_int (a : Int) = a := by
  unfold size_t_of_int
  rw [← Int.natCast_mod, Int.toNat_natCast, Nat.mod_eq_of_lt h]

/-- The `size_t` evaluation of the flat offset of an in-range tuple and of the
allocation size, for fewer than `2^16` orbitals. -/
theorem size_t_eval_nat (mo_num a b c d : Nat) (hlt : mo_num < 2 ^ 16) (ha : a < mo_num)
    (hb : b < mo_num) (hc : c < mo_num) (hd : d < mo_num) :
    MO_TEI_index_size_t a b c d mo_num = ((a * mo_num + b) * mo_num + c) * mo_num + d
      ∧ total_size mo_num = mo_num * mo_num * mo_num * mo_num := by
  have hpos : 0 < mo_num := Nat.lt_of_le_of_lt (Nat.zero_le a) ha
  have h1 := digit_bound a b mo_num mo_num ha hb
  have h2 := digit_bound (a * mo_num + b) c mo_num (mo_num * mo_num) h1 hc
  have h3 := digit_bound ((a * mo_num + b) * mo_num + c) d mo_num (mo_num * mo_num * mo_num) h2 hd
  have h16 : (2 : Nat) ^ 16 = 65536 := by norm_num
  have h64 : SIZE_T_MOD = 18446744073709551616 := by
    unfold SIZE_T_MOD
    norm_num
  have hle : mo_num ≤ 65535 := by omega
  have f2 : mo_num * mo_num ≤ 65535 * 65535 := Nat.mul_le_mul hle hle
  have f3 : mo_num * mo_num * mo_num ≤ 65535 * 65535 * 65535 := Nat.mul_le_mul f2 hle
  have f4 : mo_num * mo_num * mo_num * mo_num ≤ 65535 * 65535 * 65535 * 65535 :=
    Nat.mul_le_mul f3 hle
  have hm : mo_num < SIZE_T_MOD := by omega
  have q1 : a * mo_num < SIZE_T_MOD := by omega
  have q2 : a * mo_num + b < SIZE_T_MOD := by omega
  have q3 : (a * mo_num + b) * mo_num < SIZE_T_MOD := by omega
  have q4 : (a * mo_num + b) * mo_num + c < SIZE_T_MOD := by omega
  have q5 : ((a * mo_num + b) * mo_num + c) * mo_num < SIZE_T_MOD := by omega
  have q6 : ((a * mo_num + b) * mo_num + c) * mo_num + d < SIZE_T_MOD := by omega
  have p1 : mo_num * mo_num < SIZE_T_MOD := by omega
  have p2 : mo_num * mo_num * mo_num < SIZE_T_MOD := by omega
  have p3 : mo_num * mo_num * mo_num * mo_num < SIZE_T_MOD := by omega
  constructor
  · unfold MO_TEI_index_size_t size_t_mul size_t_add
    rw [size_t_of_int_natCast a (by omega), size_t_of_int_natCast b (by omega),
      size_t_of_int_natCast c (by omega), size_t_of_int_natCast d (by omega),
      size_t_of_int_natCast mo_num hm, Nat.mod_eq_of_lt q1, Nat.mod_eq_of_lt q2,
      Nat.mod_eq_of_lt q3, Nat.mod_eq_of_lt q4, Nat.mod_eq_of_lt q5, Nat.mod_eq_of_lt q6]
  · unfold total_size size_t_mul
    rw [size_t_of_int_natCast mo_num hm, Nat.mod_eq_of_lt p1, Nat.mod_eq_of_lt p2,
      Nat.mod_eq_of_lt p3]

/-- C15: for every `mo_num` with `0 < mo_num < 2^16` (in particular
`0 < mo_num ≤ 1000`) and all `i, j, k, l` in `[0, mo_num)`, the flat offset
`((i*mo_num + j)*mo_num + k)*mo_num + l` of the `MO_TEI` macro and the allocation
size `mo_num*mo_num*mo_num*mo_num`, evaluated in unsigned 64-bit (`size_t`)
arithmetic modulo `2^64`, equal their exact integer values. -/
theorem size_t_no_wraparound (mo_num : Nat) (i j k l : Int)
    (_hmo : 0 < mo_num) (hlt : mo_num < 2 ^ 16) (ht : InTensor mo_num i j k l) :
    ((MO_TEI_index_size_t i j k l mo_num : Nat) : Int) = MO_TEI_index i j k l mo_num
      ∧ total_size mo_num = mo_num * mo_num * mo_num * mo_num := by
  obtain ⟨a, b, c, d, rfl, rfl, rfl, rfl, ha, hb, hc, hd⟩ := InTensor_nat mo_num i j k l ht
  have h := size_t_eval_nat mo_num a b c d hlt ha hb hc hd
  refine ⟨?_, h.2⟩
  rw [h.1, (MO_TEI_index_nat mo_num a b c d ha hb hc hd).1]

/-- Instance of C15: a thousand orbitals and the last tuple
`(999,999,999,999)`, whose offset is `10^12 - 1`. -/
theorem size_t_no_wraparound_witness :
    (0 < 1000 ∧ 1000 < 2 ^ 16 ∧ InTensor 1000 999 999 999 999) ∧
      ((MO_TEI_index_size_t 999 999 999 999 1000 : Nat) : Int) = 999999999999
      ∧ total_size 1000 = 1000000000000 := by
  have ht : InTensor 1000 999 999 999 999 := by
    unfold InTensor
    norm_num
  have h := size_t_no_wraparound 1000 999 999 999 999 (by decide) (by norm_num) ht
  refine ⟨⟨by decide, by norm_num, ht⟩, ?_, ?_⟩
  · rw [h.1]
    norm_num [MO_TEI_index]
  · rw [h.2]

/-- The bound `2^16` is where the allocation size starts to wrap: for
`mo_num = 2^16` the product `mo_num^4 = 2^64` is `0` in `size_t`. -/
theorem total_size_two_pow_16 : total_size 65536 = 0 := by
  decide

/-- C20: for every `mo_num > 0` and all `i, j, k, l` in `[0, mo_num)`, the flat
offset `((i*mo_num + j)*mo_num + k)*mo_num + l` lies in `[0, mo_num^4)`, and two
tuples of `[0, mo_num)^4` have the same flat offset only if they are the same
tuple. -/
theorem MO_TEI_index_in_bounds_injective (mo_num : Nat) (i j k l i' j' k' l' : Int)
    (_hmo : 0 < mo_num) (ht : InTensor mo_num i j k l) (ht' : InTensor mo_num i' j' k' l') :
    (0 ≤ MO_TEI_index i j k l mo_num ∧ MO_TEI_index i j k l mo_num < (mo_num : Int) ^ 4)
      ∧ (MO_TEI_index i j k l mo_num = MO_TEI_index i' j' k' l' mo_num →
        i = i' ∧ j = j' ∧ k = k' ∧ l = l') := by
  constructor
  · obtain ⟨a, b, c, d, rfl, rfl, rfl, rfl, ha, hb, hc, hd⟩ := InTensor_nat mo_num i j k l ht
    obtain ⟨heq, hlt⟩ := MO_TEI_index_nat mo_num a b c d ha hb hc hd
    rw [heq]
    refine ⟨Int.ofNat_nonneg _, ?_⟩
    have hcast : ((mo_num : Int)) ^ 4 = ((mo_num * mo_num * mo_num * mo_num : Nat) : Int) := by
      push_cast
      ring
    rw [hcast]
    exact_mod_cast hlt
  · obtain ⟨_, ⟨hj0, hj⟩, ⟨hk0, hk⟩, ⟨hl0, hl⟩⟩ := ht
    obtain ⟨_, ⟨hj0', hj'⟩, ⟨hk0', hk'⟩, ⟨hl0', hl'⟩⟩ := ht'
    exact (MO_TEI_index_inj mo_num i j k l i' j' k' l' hj0 hj hk0 hk hl0 hl hj0' hj' hk0' hk'
      hl0' hl').mp

/-- Instance of C20: three orbitals; the tuples `(2,2,2,2)` and `(0,1,2,0)` have
the offsets `80 < 81` and `15`. -/
theorem MO_TEI_index_in_bounds_injective_witness :
    (0 < 3 ∧ InTensor 3 2 2 2 2 ∧ InTensor 3 0 1 2 0) ∧
      MO_TEI_index 2 2 2 2 3 = 80 ∧ MO_TEI_index 0 1 2 0 3 = 15
      ∧ (0 ≤ MO_TEI_index 2 2 2 2 3 ∧ MO_TEI_index 2 2 2 2 3 < (3 : Int) ^ 4) := by
  have ht : InTensor 3 2 2 2 2 := by
    unfold InTensor
    norm_num
  have ht' : InTensor 3 0 1 2 0 := by
    unfold InTensor
    norm_num
  exact ⟨⟨by decide, ht, ht'⟩, by norm_num [MO_TEI_index], by norm_num [MO_TEI_index],
    (MO_TEI_index_in_bounds_injective 3 2 2 2 2 0 1 2 0 (by decide) ht ht').1⟩

/-! ## One expansion for both energies -/

/-- C16: for every `mo_num` and every sparse list, the dense tensor built inside
`compute_HF_energy` and the one built inside `compute_MP2_energy` are identical
entry by entry, and running the energy loops of the two functions on one shared
expansion (either of the two buffers) gives the same `E_HF` and `E_MP2` as the two
calls that each expand internally. -/
theorem shared_expansion (mo_num n_occ : Nat) (E_NN : ℚ) (one_e_integrals : Nat → ℚ)
    (mo_energy : Nat → ℚ) (n_integrals : Nat) (index : Nat → Int) (value : Nat → ℚ) :
    (∀ a : Int, HF_mo_tei n_integrals index value mo_num a
        = MP2_mo_tei n_integrals index value mo_num a)
      ∧ HF_energy_of_tensor E_NN one_e_integrals (HF_mo_tei n_integrals index value mo_num)
          mo_num n_occ
        = compute_HF_energy E_NN one_e_integrals n_integrals index value mo_num n_occ
      ∧ MP2_energy_of_tensor mo_energy mo_num n_occ (HF_mo_tei n_integrals index value mo_num)
        = compute_MP2_energy mo_energy mo_num n_occ n_integrals index value
      ∧ HF_energy_of_tensor E_NN one_e_integrals (MP2_mo_tei n_integrals index value mo_num)
          mo_num n_occ
        = compute_HF_energy E_NN one_e_integrals n_integrals index value mo_num n_occ
      ∧ MP2_energy_of_tensor mo_energy mo_num n_occ (MP2_mo_tei n_integrals index value mo_num)
        = compute_MP2_energy mo_energy mo_num n_occ n_integrals index value := by
  refine ⟨fun a => ?_, rfl, ?_, ?_, rfl⟩
  · rw [MP2_mo_tei_eq]
  · rw [← MP2_mo_tei_eq]
    rfl
  · rw [MP2_mo_tei_eq]
    rfl

/-! ## The linear search of the standalone program -/

theorem get_2e_integral_loop_none (p q r s : Int) (idx : Nat → Int) (val : Nat → ℚ)
    (L : List Nat)
    (h : ∀ n, n ∈ L →
      ¬ (idx (4 * n + 0) = p ∧ idx (4 * n + 1) = q ∧ idx (4 * n + 2) = r ∧ idx (4 * n + 3) = s)) :
    get_2e_integral_loop p q r s idx val L = 0 := by
  induction L with
  | nil => rfl
  | cons n rest ih =>
    unfold get_2e_integral_loop
    simp only []
    rw [if_neg (h n (List.mem_cons_self n rest))]
    exact ih (fun m hm => h m (List.mem_cons_of_mem n hm))

theorem get_2e_integral_loop_unique (p q r s : Int) (idx : Nat → Int) (val : Nat → ℚ)
    (L : List Nat) (n : Nat) (hn : n ∈ L)
    (hmatch : idx (4 * n + 0) = p ∧ idx (4 * n + 1) = q ∧ idx (4 * n + 2) = r
      ∧ idx (4 * n + 3) = s)
    (h : ∀ m, m ∈ L → m ≠ n →
      ¬ (idx (4 * m + 0) = p ∧ idx (4 * m + 1) = q ∧ idx (4 * m + 2) = r ∧ idx (4 * m + 3) = s)) :
    get_2e_integral_loop p q r s idx val L = val n := by
  induction L with
  | nil => exact absurd hn (List.not_mem_nil n)
  | cons x rest ih =>
    unfold get_2e_integral_loop
    simp only []
    by_cases hx : x = n
    · subst hx
      rw [if_pos hmatch]
    · rw [if_neg (h x (List.mem_cons_self x rest) hx)]
      rcases List.mem_cons.mp hn with hnx | hnrest
      · exact absurd hnx.symm hx
      · exact ih hnrest (fun m hm => h m (List.mem_cons_of_mem x hm))

/-- In a list without symmetry-equivalent records, a tuple is among the eight
tuples of at most one record. -/
theorem SymmetryDistinct_unique (n_integrals : Nat) (index : Nat → Int)
    (hdist : SymmetryDistinct n_integrals index) (t : Int × Int × Int × Int) (n n' : Nat)
    (hn : n < n_integrals) (hn' : n' < n_integrals) (hne : n ≠ n')
    (ht : t ∈ record_sym8 index n) : t ∉ record_sym8 index n' := by
  intro ht'
  apply hdist n n' hn hn' hne
  unfold record_sym8 at ht ht' ⊢
  exact (sym8_mem_congr _ _ _ _ _ _ _ _ t ht).mp ht'

theorem stored_mem_record_sym8 (index : Nat → Int) (n : Nat) :
    (index (4 * n + 0), index (4 * n + 1), index (4 * n + 2), index (4 * n + 3))
      ∈ record_sym8 index n := by
  simp [record_sym8, sym8]

/-- C17, as stated, fails: with two orbitals and the single record `(0,1,0,1, 5)`
(an in-range list that lists its only integral once), the query `(1,0,1,0)` is
answered `0` by `get_2e_integral`, whereas the expanded tensor holds `5` there. -/
theorem get_2e_integral_misses_symmetry :
    (0 < 2 ∧ InRange 1 (fun n => [0, 1, 0, 1].getD n 0) 2
        ∧ SymmetryDistinct 1 (fun n => [0, 1, 0, 1].getD n 0) ∧ InTensor 2 1 0 1 0) ∧
      get_2e_integral 1 0 1 0 (fun n => [0, 1, 0, 1].getD n 0) (fun _ => 5) 1 = 0
      ∧ MO_TEI 1 0 1 0 (HF_mo_tei 1 (fun n => [0, 1, 0, 1].getD n 0) (fun _ => 5) 2) 2 = 5 := by
  refine ⟨⟨by decide, ?_, ?_, ?_⟩, ?_, ?_⟩
  · intro n hn c hc
    have hn0 : n = 0 := by omega
    subst hn0
    interval_cases c <;> simp
  · intro n n' hn hn' hne
    omega
  · unfold InTensor
    norm_num
  · simp [get_2e_integral, get_2e_integral_loop, List.range_succ]
  · norm_num [HF_mo_tei, MO_TEI, MO_TEI_assign, MO_TEI_index, calloc_double, List.range_succ]

/-- C17, amended: for `mo_num > 0`, an in-range sparse list that lists each
symmetry-distinct integral once and a query tuple `(p,q,r,s)` of `[0, mo_num)^4`,
`get_2e_integral(p,q,r,s, idx, val, n_int)` returns the same value as the
expanded dense tensor entry `T(p,q,r,s)` when the query is the stored tuple
`(i,j,k,l)` of a record, and when it is none of the eight tuples of any record
(both are `0`); when the query is one of the eight tuples of a record but the
stored tuple of none, `get_2e_integral` returns `0` whereas `T(p,q,r,s)` is the
record's value. -/
theorem get_2e_integral_vs_tensor (mo_num n_integrals : Nat) (idx : Nat → Int)
    (val : Nat → ℚ) (p q r s : Int)
    (_hmo : 0 < mo_num) (hin : InRange n_integrals idx mo_num)
    (hdist : SymmetryDistinct n_integrals idx) (ht : InTensor mo_num p q r s) :
    ((∃ n, n < n_integrals
          ∧ (idx (4 * n + 0), idx (4 * n + 1), idx (4 * n + 2), idx (4 * n + 3)) = (p, q, r, s)) →
        get_2e_integral p q r s idx val n_integrals
          = MO_TEI p q r s (HF_mo_tei n_integrals idx val mo_num) mo_num)
      ∧ ((∀ n, n < n_integrals → (p, q, r, s) ∉ record_sym8 idx n) →
        get_2e_integral p q r s idx val n_integrals = 0
          ∧ MO_TEI p q r s (HF_mo_tei n_integrals idx val mo_num) mo_num = 0)
      ∧ (∀ n, n < n_integrals → (p, q, r, s) ∈ record_sym8 idx n →
        (∀ n', n' < n_integrals →
          (idx (4 * n' + 0), idx (4 * n' + 1), idx (4 * n' + 2), idx (4 * n' + 3))
            ≠ (p, q, r, s)) →
        get_2e_integral p q r s idx val n_integrals = 0
          ∧ MO_TEI p q r s (HF_mo_tei n_integrals idx val mo_num) mo_num = val n) := by
  have hlast : ∀ n, n < n_integrals → (p, q, r, s) ∈ record_sym8 idx n →
      MO_TEI p q r s (HF_mo_tei n_integrals idx val mo_num) mo_num = val n := by
    intro n hn hmem
    refine tensor_last_write n_integrals idx val mo_num hin p q r s ht n hn hmem ?_
    intro n' h1 h2
    exact SymmetryDistinct_unique n_integrals idx hdist (p, q, r, s) n n' hn h2
      (Nat.ne_of_lt h1) hmem
  refine ⟨?_, ?_, ?_⟩
  · rintro ⟨n, hn, hst⟩
    have hmem : (p, q, r, s) ∈ record_sym8 idx n := by
      rw [← hst]
      exact stored_mem_record_sym8 idx n
    rw [hlast n hn hmem]
    unfold get_2e_integral
    refine get_2e_integral_loop_unique p q r s idx val _ n (List.mem_range.mpr hn)
      (by simpa [Prod.mk.injEq] using hst) ?_
    intro m hm hmn hmatch
    have hstm : (idx (4 * m + 0), idx (4 * m + 1), idx (4 * m + 2), idx (4 * m + 3))
        = (p, q, r, s) := by
      obtain ⟨h1, h2, h3, h4⟩ := hmatch
      rw [h1, h2, h3, h4]
    apply hdist m n (List.mem_range.mp hm) hn hmn
    rw [hstm]
    exact hmem
  · intro hnone
    refine ⟨?_, tensor_unwritten n_integrals idx val mo_num hin p q r s ht hnone⟩
    unfold get_2e_integral
    refine get_2e_integral_loop_none p q r s idx val _ ?_
    intro m hm hmatch
    apply hnone m (List.mem_range.mp hm)
    obtain ⟨h1, h2, h3, h4⟩ := hmatch
    rw [← h1, ← h2, ← h3, ← h4]
    exact stored_mem_record_sym8 idx m
  · intro n hn hmem hnot
    refine ⟨?_, hlast n hn hmem⟩
    unfold get_2e_integral
    refine get_2e_integral_loop_none p q r s idx val _ ?_
    intro m hm hmatch
    apply hnot m (List.mem_range.mp hm)
    obtain ⟨h1, h2, h3, h4⟩ := hmatch
    rw [h1, h2, h3, h4]

/-- Instance of the amended C17: two orbitals and the records `(0,1,0,1, 5)` and
`(0,0,1,1, 7)`; the query `(0,0,1,1)` is the stored tuple of record 1, and both
the linear search and the tensor give `7`. -/
theorem get_2e_integral_vs_tensor_witness :
    (0 < 2 ∧ InRange 2 (fun n => [0, 1, 0, 1, 0, 0, 1, 1].getD n 0) 2
        ∧ SymmetryDistinct 2 (fun n => [0, 1, 0, 1, 0, 0, 1, 1].getD n 0)
        ∧ InTensor 2 0 0 1 1) ∧
      get_2e_integral 0 0 1 1 (fun n => [0, 1, 0, 1, 0, 0, 1, 1].getD n 0)
          (fun n => [5, 7].getD n 0) 2
        = MO_TEI 0 0 1 1 (HF_mo_tei 2 (fun n => [0, 1, 0, 1, 0, 0, 1, 1].getD n 0)
            (fun n => [5, 7].getD n 0) 2) 2
      ∧ get_2e_integral 0 0 1 1 (fun n => [0, 1, 0, 1, 0, 0, 1, 1].getD n 0)
          (fun n => [5, 7].getD n 0) 2 = 7 := by
  have hin : InRange 2 (fun n => [0, 1, 0, 1, 0, 0, 1, 1].getD n 0) 2 := by
    intro n hn c hc
    interval_cases n <;> interval_cases c <;> simp
  have hdist : SymmetryDistinct 2 (fun n => [0, 1, 0, 1, 0, 0, 1, 1].getD n 0) := by
    intro n n' hn hn' hne
    interval_cases n <;> interval_cases n' <;> first | exact absurd rfl hne | decide
  have ht : InTensor 2 0 0 1 1 := by
    unfold InTensor
    norm_num
  refine ⟨⟨by decide, hin, hdist, ht⟩, ?_, ?_⟩
  · exact (get_2e_integral_vs_tensor 2 2 _ (fun n => [5, 7].getD n 0) 0 0 1 1 (by decide) hin
      hdist ht).1 ⟨1, by decide, by decide⟩
  · simp [get_2e_integral, get_2e_integral_loop, List.range_succ]

/-! ## The MP2 loop of the standalone program -/

/-- C18: the MP2 loop of the standalone `main` does not accumulate the term
`<ij|ab> * (2*<ij|ab> - <ij|ba>) / (e_i + e_j - e_a - e_b)`.  With two orbitals of
energies `0` and `1`, one occupied, and the single record `(0,0,1,1, 1/2)`,
`get_2e_integral` gives `<00|11> = 1/2`, the term of the claim is
`(1/2) * (2*(1/2) - 1/2) / (0 + 0 - 1 - 1) = -1/8`, which is what
`compute_MP2_energy` returns, but the loop of `main` accumulates
`(1/2) * (1/2 - 1/2) / (-2)` and ends with `E_MP2 = 0`. -/
theorem main_E_MP2_drops_factor_two :
    get_2e_integral 0 0 1 1 (fun n => [0, 0, 1, 1].getD n 0) (fun _ => 1 / 2) 1 = 1 / 2
      ∧ (1 / 2 : ℚ) * (2 * (1 / 2) - 1 / 2) / (0 + 0 - 1 - 1) = -1 / 8
      ∧ compute_MP2_energy (fun n => (n : ℚ)) 2 1 1 (fun n => [0, 0, 1, 1].getD n 0)
          (fun _ => 1 / 2) = some (-1 / 8)
      ∧ main_E_MP2 (fun n => (n : ℚ)) 2 1 (fun n => [0, 0, 1, 1].getD n 0) (fun _ => 1 / 2) 1
          = some 0 := by
  have hget : get_2e_integral 0 0 1 1 (fun n => [0, 0, 1, 1].getD n 0) (fun _ => 1 / 2) 1
      = 1 / 2 := by
    simp [get_2e_integral, get_2e_integral_loop, List.range_succ]
  refine ⟨hget, by norm_num, ?_, ?_⟩
  · have hden : NonDegenerate (fun n => (n : ℚ)) 2 1 := NonDegenerate_two_one _ (by norm_num)
    rw [compute_MP2_energy_eq _ 2 1 1 _ _ hden]
    norm_num [MP2_term, MP2_mo_tei, MO_TEI, MO_TEI_assign, MO_TEI_index, calloc_double,
      List.range_succ]
  · have hsum : main_E_MP2 (fun n => (n : ℚ)) 2 1 (fun n => [0, 0, 1, 1].getD n 0)
        (fun _ => 1 / 2) 1
        = double_add (some 0) (double_div
            (get_2e_integral 0 0 1 1 (fun n => [0, 0, 1, 1].getD n 0) (fun _ => 1 / 2) 1
              * (get_2e_integral 0 0 1 1 (fun n => [0, 0, 1, 1].getD n 0) (fun _ => 1 / 2) 1
                - get_2e_integral 0 0 1 1 (fun n => [0, 0, 1, 1].getD n 0) (fun _ => 1 / 2) 1))
            ((0 : ℚ) + 0 - 1 - 1)) := by
      simp [main_E_MP2, List.range_succ, List.range']
    rw [hsum, hget]
    norm_num [double_add, double_div]

/-! ## The eight rearrangements as a group -/

set_option maxRecDepth 100000 in
theorem rearrangements_bijective : ∀ σ ∈ rearrangements, Function.Bijective σ := by
  decide

set_option maxRecDepth 100000 in
theorem rearrangements_comp :
    ∀ σ ∈ rearrangements, ∀ τ ∈ rearrangements, σ ∘ τ ∈ rearrangements := by
  decide

/-- C19: the eight index rearrangements written by the population loop,
`(i,j,k,l)`, `(i,l,k,j)`, `(k,l,i,j)`, `(k,j,i,l)`, `(j,i,l,k)`, `(l,i,j,k)`,
`(l,k,j,i)`, `(j,k,l,i)`, are permutations of the four positions that form a
group: the set contains the identity, and the composition of any two of the eight
is one of the eight.  Consequently the eight-tuple sets of two records are either
equal or disjoint. -/
theorem rearrangements_group (i j k l i' j' k' l' : Int) :
    sym8 i j k l = rearrangements.map (fun σ => rearrange σ i j k l)
      ∧ (∀ σ ∈ rearrangements, Function.Bijective σ)
      ∧ (id : Fin 4 → Fin 4) ∈ rearrangements
      ∧ (∀ σ ∈ rearrangements, ∀ τ ∈ rearrangements, σ ∘ τ ∈ rearrangements)
      ∧ ((∀ t, t ∈ sym8 i j k l ↔ t ∈ sym8 i' j' k' l')
        ∨ (∀ t, t ∈ sym8 i j k l → t ∉ sym8 i' j' k' l')) := by
  refine ⟨?_, rearrangements_bijective, by decide, rearrangements_comp, ?_⟩
  · simp [sym8, rearrangements, rearrange]
  · by_cases hcommon : ∃ t, t ∈ sym8 i j k l ∧ t ∈ sym8 i' j' k' l'
    · left
      obtain ⟨t, ht, ht'⟩ := hcommon
      have h1 : (i, j, k, l) ∈ sym8 i' j' k' l' :=
        (sym8_mem_congr i' j' k' l' i j k l t ht).mp ht'
      have h2 : (i', j', k', l') ∈ sym8 i j k l :=
        (sym8_mem_congr i j k l i' j' k' l' t ht').mp ht
      intro u
      constructor
      · intro hu
        exact (sym8_mem_congr i' j' k' l' i j k l u hu).mpr h1
      · intro hu
        exact (sym8_mem_congr i j k l i' j' k' l' u hu).mpr h2
    · right
      intro t ht ht'
      exact hcommon ⟨t, ht, ht'⟩

/-! ## The sign of the MP2 correction -/

theorem OccupiedBelowVirtual_NonDegenerate (mo_energy : Nat → ℚ) (mo_num n_occ : Nat)
    (hgap : OccupiedBelowVirtual mo_energy mo_num n_occ) :
    NonDegenerate mo_energy mo_num n_occ := by
  intro i j a b hi hj ha ha' hb hb' h0
  have h1 := hgap i a hi ha ha'
  have h2 := hgap j b hj hb hb'
  linarith

theorem MP2_pair_nonpos (x y gap : ℚ) (hgap : gap < 0) :
    x * (2 * x - y) / gap + y * (2 * y - x) / gap ≤ 0 := by
  rw [← add_div]
  apply div_nonpos_of_nonneg_of_nonpos _ (le_of_lt hgap)
  nlinarith [sq_nonneg x, sq_nonneg y, sq_nonneg (x - y)]

theorem sum_sum_nonpos_of_pair (S : Finset Nat) (f : Nat → Nat → ℚ)
    (h : ∀ a, a ∈ S → ∀ b, b ∈ S → f a b + f b a ≤ 0) :
    ∑ a in S, ∑ b in S, f a b ≤ 0 := by
  have hswap : ∑ a in S, ∑ b in S, f b a = ∑ a in S, ∑ b in S, f a b := Finset.sum_comm
  have hadd : ∑ a in S, ∑ b in S, (f a b + f b a)
      = ∑ a in S, ∑ b in S, f a b + ∑ a in S, ∑ b in S, f b a := by
    simp only [Finset.sum_add_distrib]
  have hle : ∑ a in S, ∑ b in S, (f a b + f b a) ≤ 0 :=
    Finset.sum_nonpos (fun a ha => Finset.sum_nonpos (fun b hb => h a ha b hb))
  rw [hadd, hswap] at hle
  linarith

/-- C21: for every `mo_num`, `n_occ ≤ mo_num` and in-range sparse list, if every
occupied orbital energy is strictly below every virtual orbital energy (so that
every denominator `e_i + e_j - e_a - e_b` is negative), then `compute_MP2_energy`
returns a (finite) value that is `≤ 0`. -/
theorem compute_MP2_energy_nonpos (mo_num n_occ : Nat) (mo_energy : Nat → ℚ)
    (n_integrals : Nat) (index : Nat → Int) (value : Nat → ℚ)
    (_hocc : n_occ ≤ mo_num) (_hin : InRange n_integrals index mo_num)
    (hgap : OccupiedBelowVirtual mo_energy mo_num n_occ) :
    ∃ emp2 : ℚ, compute_MP2_energy mo_energy mo_num n_occ n_integrals index value = some emp2
      ∧ emp2 ≤ 0 := by
  refine ⟨_, compute_MP2_energy_eq mo_energy mo_num n_occ n_integrals index value
    (OccupiedBelowVirtual_NonDegenerate mo_energy mo_num n_occ hgap), ?_⟩
  refine Finset.sum_nonpos (fun i hi => Finset.sum_nonpos (fun j hj => ?_))
  apply sum_sum_nonpos_of_pair
  intro a ha b hb
  have hi' := Finset.mem_range.mp hi
  have hj' := Finset.mem_range.mp hj
  obtain ⟨ha1, ha2⟩ := Finset.mem_Ico.mp ha
  obtain ⟨hb1, hb2⟩ := Finset.mem_Ico.mp hb
  have h1 := hgap i a hi' ha1 ha2
  have h2 := hgap j b hj' hb1 hb2
  have hneg : mo_energy i + mo_energy j - mo_energy a - mo_energy b < 0 := by linarith
  have hcomm : mo_energy i + mo_energy j - mo_energy b - mo_energy a
      = mo_energy i + mo_energy j - mo_energy a - mo_energy b := by ring
  unfold MP2_term
  rw [hcomm]
  exact MP2_pair_nonpos _ _ _ hneg

/-- Instance of C21: two orbitals of energies `0` and `1`, one occupied, and the
single record `(0,0,1,1, 1/2)`; the value returned is `-1/8`. -/
theorem compute_MP2_energy_nonpos_witness :
    (1 ≤ 2 ∧ InRange 1 (fun n => [0, 0, 1, 1].getD n 0) 2
        ∧ OccupiedBelowVirtual (fun n => (n : ℚ)) 2 1) ∧
      ∃ emp2 : ℚ, compute_MP2_energy (fun n => (n : ℚ)) 2 1 1
          (fun n => [0, 0, 1, 1].getD n 0) (fun _ => 1 / 2) = some emp2 ∧ emp2 ≤ 0 := by
  have hin : InRange 1 (fun n => [0, 0, 1, 1].getD n 0) 2 := by
    intro n hn c hc
    have hn0 : n = 0 := by omega
    subst hn0
    interval_cases c <;> simp
  have hgap : OccupiedBelowVirtual (fun n => (n : ℚ)) 2 1 := by
    intro i a hi ha _
    have hi0 : i = 0 := by omega
    subst hi0
    have ha1 : (1 : ℚ) ≤ (a : ℚ) := by exact_mod_cast ha
    simp only [Nat.cast_zero]
    linarith
  exact ⟨⟨by decide, hin, hgap⟩,
    compute_MP2_energy_nonpos 2 1 _ 1 _ (fun _ => 1 / 2) (by decide) hin hgap⟩

/-! ## The two copies of `compute_HF_energy` -/

/-- C22: the copies of `compute_HF_energy` in `project1/HW1/src/hf_energy.c` and
in `project1/src/hf_energy.c` are the same function: for every `E_NN`,
one-electron matrix, sparse list, `mo_num` and `n_occ` they return the same
value. -/
theorem compute_HF_energy_copies_agree (E_NN : ℚ) (one_e_integrals : Nat → ℚ)
    (n_integrals : Nat) (index : Nat → Int) (value : Nat → ℚ) (mo_num n_occ : Nat) :
    compute_HF_energy E_NN one_e_integrals n_integrals index value mo_num n_occ
      = compute_HF_energy_src E_NN one_e_integrals n_integrals index value mo_num n_occ :=
  rfl

/-! ## Unvalidated indices: assignments that stay inside the buffer -/

/-- An offset inside the buffer is the flat offset of a tuple of
`[0, mo_num)^4`. -/
theorem InBuffer_is_slot (mo_num : Nat) (offset : Int) (h : InBuffer mo_num offset) :
    ∃ a b c d : Int, InTensor mo_num a b c d ∧ MO_TEI_index a b c d mo_num = offset := by
  obtain ⟨h0, hlt⟩ := h
  obtain ⟨o, rfl⟩ := Int.eq_ofNat_of_zero_le h0
  have hlt' : o < mo_num * mo_num * mo_num * mo_num := by
    have hcast : ((mo_num : Int)) ^ 4 = ((mo_num * mo_num * mo_num * mo_num : Nat) : Int) := by
      push_cast
      ring
    rw [hcast] at hlt
    exact_mod_cast hlt
  have hpos : 0 < mo_num := by
    rcases Nat.eq_zero_or_pos mo_num with hz | hp
    · rw [hz] at hlt'
      exact absurd hlt' (Nat.not_lt_zero o)
    · exact hp
  have h1 : o / mo_num < mo_num * mo_num * mo_num := (Nat.div_lt_iff_lt_mul hpos).mpr hlt'
  have h2 : o / mo_num / mo_num < mo_num * mo_num := (Nat.div_lt_iff_lt_mul hpos).mpr h1
  have h3 : o / mo_num / mo_num / mo_num < mo_num := (Nat.div_lt_iff_lt_mul hpos).mpr h2
  have hj : o / mo_num / mo_num % mo_num < mo_num := Nat.mod_lt _ hpos
  have hk : o / mo_num % mo_num < mo_num := Nat.mod_lt _ hpos
  have hl : o % mo_num < mo_num := Nat.mod_lt _ hpos
  refine ⟨((o / mo_num / mo_num / mo_num : Nat) : Int), ((o / mo_num / mo_num % mo_num : Nat) : Int),
    ((o / mo_num % mo_num : Nat) : Int), ((o % mo_num : Nat) : Int), ?_, ?_⟩
  · exact ⟨⟨Int.ofNat_nonneg _, by exact_mod_cast h3⟩, ⟨Int.ofNat_nonneg _, by exact_mod_cast hj⟩,
      ⟨Int.ofNat_nonneg _, by exact_mod_cast hk⟩, ⟨Int.ofNat_nonneg _, by exact_mod_cast hl⟩⟩
  · rw [(MO_TEI_index_nat mo_num _ _ _ _ h3 hj hk hl).1, Nat.div_add_mod' (o / mo_num / mo_num),
      Nat.div_add_mod' (o / mo_num), Nat.div_add_mod' o]

theorem size_t_of_int_cast (x : Int) :
    ((size_t_of_int x : Nat) : Int) = x % (SIZE_T_MOD : Int) := by
  unfold size_t_of_int
  have hM : (SIZE_T_MOD : Int) ≠ 0 := by
    unfold SIZE_T_MOD
    norm_num
  exact Int.toNat_of_nonneg (Int.emod_nonneg x hM)

/-- The `size_t` evaluation of the flat offset is the exact offset modulo `2^64`,
whatever the signs and sizes of the indices. -/
theorem MO_TEI_index_size_t_emod (i j k l : Int) (mo_num : Nat) :
    ((MO_TEI_index_size_t i j k l mo_num : Nat) : Int)
      = MO_TEI_index i j k l mo_num % (SIZE_T_MOD : Int) := by
  have hi := Int.mod_modEq i (SIZE_T_MOD : Int)
  have hj := Int.mod_modEq j (SIZE_T_MOD : Int)
  have hk := Int.mod_modEq k (SIZE_T_MOD : Int)
  have hl := Int.mod_modEq l (SIZE_T_MOD : Int)
  have hm := Int.mod_modEq (mo_num : Int) (SIZE_T_MOD : Int)
  have e1 := (Int.mod_modEq (i % (SIZE_T_MOD : Int) * ((mo_num : Int) % (SIZE_T_MOD : Int)))
    (SIZE_T_MOD : Int)).trans (hi.mul hm)
  have e2 := (Int.mod_modEq _ (SIZE_T_MOD : Int)).trans (e1.add hj)
  have e3 := (Int.mod_modEq _ (SIZE_T_MOD : Int)).trans (e2.mul hm)
  have e4 := (Int.mod_modEq _ (SIZE_T_MOD : Int)).trans (e3.add hk)
  have e5 := (Int.mod_modEq _ (SIZE_T_MOD : Int)).trans (e4.mul hm)
  have e6 := e5.add hl
  unfold MO_TEI_index_size_t size_t_add size_t_mul MO_TEI_index
  push_cast [size_t_of_int_cast]
  exact e6


/-- C12, amended: the tensor expansion performed by `compute_HF_energy` and
`compute_MP2_energy` validates no index and raises no error.  For a sparse list all
of whose assignments go to elements inside the buffer of `mo_num^4` elements
(records in `[0, mo_num)` or not), after the loop the buffer holds the value of the
last record at the flat offset `((p*mo_num + q)*mo_num + r)*mo_num + s` of each of
its eight tuples `(p,q,r,s)`.  That offset is the slot of a tuple `(a,b,c,d)` of
`[0, mo_num)^4`, which is none of the record's eight tuples when `(p,q,r,s)` is out
of range, and for `mo_num < 2^16` the `size_t` evaluation of the macro gives this
same offset.  Nothing is stated for a list with an assignment outside the
buffer. -/
theorem population_unchecked (mo_num N : Nat) (index : Nat → Int) (value : Nat → ℚ)
    (mo_tei : Int → ℚ) (p q r s : Int)
    (hbuf : WritesInBuffer (N + 1) index mo_num)
    (hT : mo_tei = HF_mo_tei (N + 1) index value mo_num
      ∨ mo_tei = MP2_mo_tei (N + 1) index value mo_num)
    (hp : (p, q, r, s) ∈ record_sym8 index N) :
    MO_TEI p q r s mo_tei mo_num = value N
      ∧ (∃ a b c d : Int, InTensor mo_num a b c d
          ∧ MO_TEI_index a b c d mo_num = MO_TEI_index p q r s mo_num
          ∧ MO_TEI a b c d mo_tei mo_num = value N
          ∧ (¬ InTensor mo_num p q r s → (a, b, c, d) ∉ record_sym8 index N))
      ∧ (mo_num < 2 ^ 16 →
          ((MO_TEI_index_size_t p q r s mo_num : Nat) : Int) = MO_TEI_index p q r s mo_num) := by
  have hT' : mo_tei = HF_mo_tei (N + 1) index value mo_num := by
    rcases hT with h | h
    · exact h
    · rw [h, MP2_mo_tei_eq]
  subst hT'
  have hval : MO_TEI p q r s (HF_mo_tei (N + 1) index value mo_num) mo_num = value N := by
    unfold MO_TEI
    rw [HF_mo_tei_succ]
    exact store8_holds mo_num _ _ _ _ _ _ p q r s hp
  have hin : InBuffer mo_num (MO_TEI_index p q r s mo_num) :=
    hbuf N (Nat.lt_succ_self N) p q r s hp
  refine ⟨hval, ?_, ?_⟩
  · obtain ⟨a, b, c, d, ht, hoff⟩ := InBuffer_is_slot mo_num _ hin
    refine ⟨a, b, c, d, ht, hoff, ?_, ?_⟩
    · unfold MO_TEI at hval ⊢
      rw [hoff]
      exact hval
    · intro hout hmem
      apply hout
      unfold record_sym8 at hp hmem
      have hself : (a, b, c, d) ∈ sym8 a b c d := by simp [sym8]
      have hrec := (sym8_mem_congr a b c d _ _ _ _ (a, b, c, d) hmem).mp hself
      have hpq := (sym8_mem_congr a b c d _ _ _ _ (p, q, r, s) hp).mpr hrec
      exact InTensor_of_mem_sym8 mo_num a b c d p q r s ht hpq
  · intro hlt
    rw [MO_TEI_index_size_t_emod]
    obtain ⟨h0, hlt4⟩ := hin
    apply Int.emod_eq_of_lt h0
    have hm : (mo_num : Int) < 65536 := by
      have : mo_num < 65536 := by
        have h16 : (2 : Nat) ^ 16 = 65536 := by norm_num
        omega
      exact_mod_cast this
    have hm0 : (0 : Int) ≤ (mo_num : Int) := Int.ofNat_nonneg mo_num
    have hpow : (mo_num : Int) ^ 4 ≤ 65536 ^ 4 := pow_le_pow_left₀ hm0 (le_of_lt hm) 4
    have h64 : (SIZE_T_MOD : Int) = 65536 ^ 4 := by
      unfold SIZE_T_MOD
      norm_num
    rw [h64]
    exact lt_of_lt_of_le hlt4 hpow

/-- Instance of the amended C12: three orbitals and the out-of-range record
`(-1,3,-1,3, 5)`, whose eight assignments go to the offsets `0` and `80` of the
buffer of `81` elements; the buffer of `compute_MP2_energy` holds `5` at the
offset of `(3,-1,3,-1)`, which is the offset `80` of the slot of `(2,2,2,2)`. -/
theorem population_unchecked_witness :
    (WritesInBuffer 1 (fun n => [-1, 3, -1, 3].getD n 0) 3
        ∧ (3, -1, 3, -1) ∈ record_sym8 (fun n => [-1, 3, -1, 3].getD n 0) 0
        ∧ ¬ InTensor 3 3 (-1) 3 (-1)
        ∧ MO_TEI_index 3 (-1) 3 (-1) 3 = 80
        ∧ MO_TEI_index 2 2 2 2 3 = 80)
      ∧ MO_TEI 3 (-1) 3 (-1)
          (MP2_mo_tei 1 (fun n => [-1, 3, -1, 3].getD n 0) (fun _ => 5) 3) 3
        = (fun _ : Nat => (5 : ℚ)) 0
      ∧ ((MO_TEI_index_size_t 3 (-1) 3 (-1) 3 : Nat) : Int) = MO_TEI_index 3 (-1) 3 (-1) 3 := by
  have hp : (3, -1, 3, -1) ∈ record_sym8 (fun n => [-1, 3, -1, 3].getD n 0) 0 := by
    simp [record_sym8, sym8]
  have hbuf : WritesInBuffer 1 (fun n => [-1, 3, -1, 3].getD n 0) 3 := by
    intro n hn p q r s hmem
    have hn0 : n = 0 := by omega
    subst hn0
    simp only [record_sym8, sym8, List.mem_cons, List.mem_singleton, List.mem_nil_iff,
      or_false, Prod.mk.injEq] at hmem
    rcases hmem with ⟨rfl, rfl, rfl, rfl⟩ | ⟨rfl, rfl, rfl, rfl⟩ | ⟨rfl, rfl, rfl, rfl⟩ |
        ⟨rfl, rfl, rfl, rfl⟩ | ⟨rfl, rfl, rfl, rfl⟩ | ⟨rfl, rfl, rfl, rfl⟩ |
        ⟨rfl, rfl, rfl, rfl⟩ | ⟨rfl, rfl, rfl, rfl⟩ <;>
      norm_num [InBuffer, MO_TEI_index]
  have hthm := population_unchecked 3 0 _ (fun _ => 5) _ 3 (-1) 3 (-1) hbuf (Or.inr rfl) hp
  refine ⟨⟨hbuf, hp, ?_, by norm_num [MO_TEI_index], by norm_num [MO_TEI_index]⟩,
    hthm.1, hthm.2.2 (by norm_num)⟩
  unfold InTensor
  norm_num

/-! ## Unvalidated dimensions -/

theorem int_loop_zero_natCast (n : Nat) :
    int_loop 0 (n : Int) = (List.range n).map (fun t : Nat => (t : Int)) := by
  simp [int_loop]

theorem int_loop_natCast (o m : Nat) :
    int_loop (o : Int) (m : Int) = (List.range' o (m - o)).map (fun t : Nat => (t : Int)) := by
  unfold int_loop
  rw [Int.toNat_sub, List.range'_eq_map_range, List.map_map]
  apply List.map_congr_left
  intro t _
  simp

/-- For a natural `mo_num` the population loop with an `int mo_num` is the
population loop of the embedding over the naturals. -/
theorem mo_tei_int_natCast (n_integrals : Nat) (index : Nat → Int) (value : Nat → ℚ)
    (mo_num : Nat) :
    mo_tei_int n_integrals index value (mo_num : Int)
      = HF_mo_tei n_integrals index value mo_num := rfl

/-- For natural dimensions `compute_HF_energy_int` is `compute_HF_energy`. -/
theorem compute_HF_energy_int_natCast (E_NN : ℚ) (one_e_integrals : Nat → ℚ)
    (n_integrals : Nat) (index : Nat → Int) (value : Nat → ℚ) (mo_num n_occ : Nat) :
    compute_HF_energy_int E_NN (fun a => one_e_integrals a.toNat) n_integrals index value
        (mo_num : Int) (n_occ : Int)
      = compute_HF_energy E_NN one_e_integrals n_integrals index value mo_num n_occ := by
  unfold compute_HF_energy_int compute_HF_energy
  simp only [int_loop_zero_natCast, List.foldl_map, mo_tei_int_natCast]
  have h : ∀ i : Nat, ((i : Int) * (mo_num : Int) + (i : Int)).toNat = i * mo_num + i := by
    intro i
    have : ((i : Int) * (mo_num : Int) + (i : Int)) = ((i * mo_num + i : Nat) : Int) := by
      push_cast
      rfl
    rw [this, Int.toNat_natCast]
  simp only [h]
  rfl

/-- For natural dimensions `compute_MP2_energy_int` is `compute_MP2_energy`. -/
theorem compute_MP2_energy_int_natCast (mo_energy : Nat → ℚ) (mo_num n_occ n_integrals : Nat)
    (index : Nat → Int) (value : Nat → ℚ) :
    compute_MP2_energy_int (fun a => mo_energy a.toNat) (mo_num : Int) (n_occ : Int)
        n_integrals index value
      = compute_MP2_energy mo_energy mo_num n_occ n_integrals index value := by
  unfold compute_MP2_energy_int compute_MP2_energy
  simp only [int_loop_zero_natCast, int_loop_natCast, List.foldl_map, mo_tei_int_natCast,
    Int.toNat_natCast]
  rfl

end Project1

namespace Project3

/-! ## The loops of `compute_acc` -/

theorem acc_init_apply (acceleration : Nat → Nat → Option ℚ) (i i' d' : Nat) :
    acc_init acceleration i i' d'
      = if i' = i ∧ d' < 3 then some 0 else acceleration i' d' := by
  unfold acc_init assign2
  by_cases hi : i' = i
  · rcases (show d' = 0 ∨ d' = 1 ∨ d' = 2 ∨ 3 ≤ d' by omega) with h | h | h | h
    · simp [hi, h]
    · simp [hi, h]
    · simp [hi, h]
    · have h0 : d' ≠ 0 := by omega
      have h1 : d' ≠ 1 := by omega
      have h2 : d' ≠ 2 := by omega
      have h3 : ¬ d' < 3 := by omega
      simp [h0, h1, h2, h3]
  · simp [hi]

theorem acc_pair_apply (coord : Nat → Nat → ℚ) (mass : Nat → ℚ) (distance : Nat → Nat → ℚ)
    (acceleration : Nat → Nat → Option ℚ) (i j i' d' : Nat) :
    acc_pair coord mass distance acceleration i j i' d'
      = if (i' = i ∧ d' < 3) ∧ (i ≠ j ∧ 0 < distance i j) then
          Project1.double_add (acceleration i d')
            (Project1.double_div (force_mag (distance i j) * (coord i d' - coord j d'))
              (mass i))
        else acceleration i' d' := by
  unfold acc_pair
  by_cases hij : i ≠ j
  · by_cases hr : distance i j > 0
    · have hr' : 0 < distance i j := hr
      simp only [hij, hr, hr', if_true, ne_eq, not_false_eq_true, and_self, and_true]
      unfold assign2 force_mag
      by_cases hi : i' = i
      · rcases (show d' = 0 ∨ d' = 1 ∨ d' = 2 ∨ 3 ≤ d' by omega) with h | h | h | h
        · simp [hi, h]
        · simp [hi, h]
        · simp [hi, h]
        · have h0 : d' ≠ 0 := by omega
          have h1 : d' ≠ 1 := by omega
          have h2 : d' ≠ 2 := by omega
          have h3 : ¬ d' < 3 := by omega
          simp [h0, h1, h2, h3]
      · simp [hi]
    · have hr' : ¬ 0 < distance i j := hr
      simp [hij, hr, hr']
  · simp [hij]

theorem acc_init_loop (L : List Nat) (acceleration : Nat → Nat → Option ℚ) (i' d' : Nat) :
    L.foldl (fun acceleration (i : Nat) => acc_init acceleration i) acceleration i' d'
      = if i' ∈ L ∧ d' < 3 then some 0 else acceleration i' d' := by
  induction L generalizing acceleration with
  | nil => simp
  | cons i rest ih =>
    rw [List.foldl_cons, ih, acc_init_apply]
    by_cases h1 : i' ∈ rest <;> by_cases h2 : i' = i <;> by_cases h3 : d' < 3 <;>
      simp [h1, h2, h3]

theorem row_loop_other (coord : Nat → Nat → ℚ) (mass : Nat → ℚ) (distance : Nat → Nat → ℚ)
    (L : List Nat) (acceleration : Nat → Nat → Option ℚ) (i i' d' : Nat) (hi : i' ≠ i) :
    L.foldl (fun acceleration (j : Nat) => acc_pair coord mass distance acceleration i j)
        acceleration i' d'
      = acceleration i' d' := by
  induction L generalizing acceleration with
  | nil => rfl
  | cons j rest ih =>
    rw [List.foldl_cons, ih, acc_pair_apply, if_neg (fun h => hi h.1.1)]

theorem row_loop_row (coord : Nat → Nat → ℚ) (mass : Nat → ℚ) (distance : Nat → Nat → ℚ)
    (L : List Nat) (acceleration : Nat → Nat → Option ℚ) (i d : Nat) (s : ℚ)
    (hd : d < 3) (hm : mass i ≠ 0) (hs : acceleration i d = some s) :
    L.foldl (fun acceleration (j : Nat) => acc_pair coord mass distance acceleration i j)
        acceleration i d
      = some (s + (L.map (fun j => pair_force coord distance i j d / mass i)).sum) := by
  induction L generalizing acceleration s with
  | nil => simpa using hs
  | cons j rest ih =>
    have hstep : acc_pair coord mass distance acceleration i j i d
        = some (s + pair_force coord distance i j d / mass i) := by
      rw [acc_pair_apply, hs]
      unfold pair_force
      by_cases hc : i ≠ j ∧ 0 < distance i j
      · rw [if_pos ⟨⟨rfl, hd⟩, hc⟩, if_pos hc]
        simp [Project1.double_add, Project1.double_div, hm]
      · rw [if_neg (fun h => hc h.2), if_neg hc]
        simp
    rw [List.foldl_cons, ih _ _ hstep, List.map_cons, List.sum_cons, add_assoc]

theorem rows_loop_other (Natoms : Nat) (coord : Nat → Nat → ℚ) (mass : Nat → ℚ)
    (distance : Nat → Nat → ℚ) (L : List Nat) (acceleration : Nat → Nat → Option ℚ)
    (i' d' : Nat) (hi : i' ∉ L) :
    L.foldl
        (fun acceleration (i : Nat) =>
          (List.range Natoms).foldl
            (fun acceleration (j : Nat) => acc_pair coord mass distance acceleration i j)
            acceleration)
        acceleration i' d'
      = acceleration i' d' := by
  induction L generalizing acceleration with
  | nil => rfl
  | cons i rest ih =>
    rw [List.foldl_cons, ih _ (fun h => hi (List.mem_cons_of_mem i h)),
      row_loop_other coord mass distance _ _ i i' d'
        (fun h => hi (h ▸ List.mem_cons_self i rest))]

theorem rows_loop_row (Natoms : Nat) (coord : Nat → Nat → ℚ) (mass : Nat → ℚ)
    (distance : Nat → Nat → ℚ) (L : List Nat) (acceleration : Nat → Nat → Option ℚ)
    (hnodup : L.Nodup) (hm : ∀ i, i ∈ L → mass i ≠ 0)
    (hzero : ∀ i, i ∈ L → ∀ d, d < 3 → acceleration i d = some 0)
    (i d : Nat) (hi : i ∈ L) (hd : d < 3) :
    L.foldl
        (fun acceleration (i : Nat) =>
          (List.range Natoms).foldl
            (fun acceleration (j : Nat) => acc_pair coord mass distance acceleration i j)
            acceleration)
        acceleration i d
      = some (∑ j in Finset.range Natoms, pair_force coord distance i j d / mass i) := by
  induction L generalizing acceleration with
  | nil => exact absurd hi (List.not_mem_nil i)
  | cons x rest ih =>
    obtain ⟨hx, hrest⟩ := List.nodup_cons.mp hnodup
    rw [List.foldl_cons]
    rcases List.mem_cons.mp hi with hix | hirest
    · subst hix
      rw [rows_loop_other Natoms coord mass distance rest _ i d hx,
        row_loop_row coord mass distance _ _ i d 0 hd (hm i (List.mem_cons_self i rest))
          (hzero i (List.mem_cons_self i rest) d hd),
        Project1.sum_map_range, zero_add]
    · refine ih _ hrest (fun k hk => hm k (List.mem_cons_of_mem x hk)) ?_ hirest
      intro k hk d' hd'
      have hkx : k ≠ x := fun h => hx (h ▸ hk)
      rw [row_loop_other coord mass distance _ _ x k d' hkx]
      exact hzero k (List.mem_cons_of_mem x hk) d' hd'

/-- Each component of the acceleration of an atom written by `compute_acc`, for
non-zero masses: the sum over the atoms `j` of the pair contribution divided by
the mass. -/
theorem compute_acc_apply (Natoms : Nat) (coord : Nat → Nat → ℚ) (mass : Nat → ℚ)
    (distance : Nat → Nat → ℚ) (acceleration : Nat → Nat → Option ℚ)
    (hm : ∀ i, i < Natoms → mass i ≠ 0) (i d : Nat) (hi : i < Natoms) (hd : d < 3) :
    compute_acc Natoms coord mass distance acceleration i d
      = some (∑ j in Finset.range Natoms, pair_force coord distance i j d / mass i) := by
  unfold compute_acc
  refine rows_loop_row Natoms coord mass distance (List.range Natoms) _
    (List.nodup_range Natoms) (fun k hk => hm k (List.mem_range.mp hk)) ?_ i d
    (List.mem_range.mpr hi) hd
  intro k hk d' hd'
  rw [acc_init_loop, if_pos ⟨hk, hd'⟩]

theorem pair_force_antisymm (coord : Nat → Nat → ℚ) (distance : Nat → Nat → ℚ) (i j d : Nat)
    (hsym : distance i j = distance j i) :
    pair_force coord distance j i d = - pair_force coord distance i j d := by
  unfold pair_force
  rw [← hsym]
  by_cases hc : i ≠ j ∧ 0 < distance i j
  · rw [if_pos hc, if_pos ⟨fun h => hc.1 h.symm, hc.2⟩]
    ring
  · rw [if_neg hc, if_neg (fun h => hc ⟨fun h' => h.1 h'.symm, h.2⟩)]
    ring

theorem sum_pair_force_zero (Natoms : Nat) (coord : Nat → Nat → ℚ) (distance : Nat → Nat → ℚ)
    (hsym : ∀ i j, i < Natoms → j < Natoms → distance i j = distance j i) (d : Nat) :
    ∑ i in Finset.range Natoms, ∑ j in Finset.range Natoms, pair_force coord distance i j d
      = 0 := by
  have hswap : ∑ i in Finset.range Natoms, ∑ j in Finset.range Natoms,
        pair_force coord distance j i d
      = ∑ i in Finset.range Natoms, ∑ j in Finset.range Natoms,
        pair_force coord distance i j d := Finset.sum_comm
  have hneg : ∑ i in Finset.range Natoms, ∑ j in Finset.range Natoms,
        pair_force coord distance j i d
      = - ∑ i in Finset.range Natoms, ∑ j in Finset.range Natoms,
        pair_force coord distance i j d := by
    rw [← Finset.sum_neg_distrib]
    refine Finset.sum_congr rfl (fun i hi => ?_)
    rw [← Finset.sum_neg_distrib]
    refine Finset.sum_congr rfl (fun j hj => ?_)
    exact pair_force_antisymm coord distance i j d
      (hsym i j (Finset.mem_range.mp hi) (Finset.mem_range.mp hj))
  rw [hswap] at hneg
  linarith

/-! ## Newton's third law -/

/-- C23: for every `Natoms`, every coordinate array, every array of non-zero
masses and every symmetric distance matrix (`distance[i][j] = distance[j][i]`),
the accelerations written by `compute_acc` are finite and satisfy
`Σ_i mass[i] * acceleration[i][d] = 0` for each component `d` in `{0,1,2}`.
The acceleration of atom `i` is the sum over `j` of the pair contributions
divided by `mass[i]`, and the pairs with distance `≤ 0` and the pair `i = j`
contribute nothing. -/
theorem compute_acc_newton_third_law (Natoms : Nat) (coord : Nat → Nat → ℚ) (mass : Nat → ℚ)
    (distance : Nat → Nat → ℚ) (acceleration : Nat → Nat → Option ℚ)
    (hm : ∀ i, i < Natoms → mass i ≠ 0)
    (hsym : ∀ i j, i < Natoms → j < Natoms → distance i j = distance j i) :
    ∃ acc : Nat → Nat → ℚ,
      (∀ i d, i < Natoms → d < 3 →
        compute_acc Natoms coord mass distance acceleration i d = some (acc i d))
      ∧ (∀ d, d < 3 → ∑ i in Finset.range Natoms, mass i * acc i d = 0)
      ∧ (∀ i d, i < Natoms → d < 3 →
        acc i d = ∑ j in Finset.range Natoms, pair_force coord distance i j d / mass i)
      ∧ (∀ i j d, i = j ∨ distance i j ≤ 0 → pair_force coord distance i j d = 0) := by
  refine ⟨fun i d => ∑ j in Finset.range Natoms, pair_force coord distance i j d / mass i,
    fun i d hi hd => compute_acc_apply Natoms coord mass distance acceleration hm i d hi hd,
    ?_, fun i d _ _ => rfl, ?_⟩
  · intro d _
    rw [← sum_pair_force_zero Natoms coord distance hsym d]
    refine Finset.sum_congr rfl (fun i hi => ?_)
    have hmi := hm i (Finset.mem_range.mp hi)
    rw [Finset.mul_sum]
    refine Finset.sum_congr rfl (fun j _ => ?_)
    field_simp
  · intro i j d h
    unfold pair_force
    rw [if_neg]
    rintro ⟨hne, hpos⟩
    rcases h with h | h
    · exact hne h
    · exact absurd hpos (not_lt.mpr h)

/-- Instance of C23: two atoms of masses `1` and `2` at `(0,0,0)` and `(1,0,0)`,
at distance `1` from each other, and an acceleration array whose elements are
non-finite before the call. -/
theorem compute_acc_newton_third_law_witness :
    ((∀ i, i < 2 → (fun i : Nat => (i : ℚ) + 1) i ≠ 0)
        ∧ (∀ i j, i < 2 → j < 2 →
          (fun i j : Nat => if i = j then (0 : ℚ) else 1) i j
            = (fun i j : Nat => if i = j then (0 : ℚ) else 1) j i)) ∧
      ∃ acc : Nat → Nat → ℚ,
        (∀ i d, i < 2 → d < 3 →
          compute_acc 2 (fun i d => if d = 0 then (i : ℚ) else 0) (fun i => (i : ℚ) + 1)
            (fun i j => if i = j then 0 else 1) (fun _ _ => none) i d = some (acc i d))
        ∧ (∀ d, d < 3 → ∑ i in Finset.range 2, (fun i : Nat => (i : ℚ) + 1) i * acc i d = 0) := by
  have hm : ∀ i, i < 2 → (fun i : Nat => (i : ℚ) + 1) i ≠ 0 := by
    intro i _
    show (i : ℚ) + 1 ≠ 0
    positivity
  have hsym : ∀ i j, i < 2 → j < 2 →
      (fun i j : Nat => if i = j then (0 : ℚ) else 1) i j
        = (fun i j : Nat => if i = j then (0 : ℚ) else 1) j i := by
    intro i j _ _
    by_cases h : i = j
    · simp [h]
    · have h' : ¬ j = i := fun e => h e.symm
      simp [h, h']
  obtain ⟨acc, h1, h2, _⟩ := compute_acc_newton_third_law 2
    (fun i d => if d = 0 then (i : ℚ) else 0) (fun i => (i : ℚ) + 1)
    (fun i j => if i = j then 0 else 1) (fun _ _ => none) hm hsym
  exact ⟨⟨hm, hsym⟩, acc, h1, h2⟩

end Project3
